import Mathlib

/-!
Verification of the pulse storage engine (github.com/2389-research/pulse).

This file gives a shallow embedding, in Lean 4, of the storage-engine code of
the pulse repository: the journal markdown store (WriteEntry / ReadEntry /
ListEntries and the section codec renderSections / parseSections), the social
markdown store (CreatePost / ListPosts / MarkSynced / parseSocialPost), and
the embedding search layer (CosineSimilarity).  Pure Go functions become Lean
functions; the filesystem is modelled explicitly as data passed to the
functions that scan it.  External libraries the code delegates to
(harperreed/mdstore frontmatter + YAML codec, google/uuid) are not part of
the repository; they are modelled from the specification at their boundary,
and each such definition is marked in its doc comment.

Go float64 arithmetic is idealised as exact arithmetic: vector components are
rationals and the final square-root/division step is carried out in the real
numbers.  Go time.Time values are modelled as integer microseconds since the
Unix epoch (the code only ever formats, compares, truncates to days and
subtracts whole days, all of which this representation supports exactly).
-/

namespace Pulse

/-! ### Embedding search: CosineSimilarity (internal/embeddings/search.go) -/

/-- The dot-product accumulation loop of CosineSimilarity: pairwise products
summed over the common length (the function is only reached with equal
lengths).  Components are Go float64, idealised as rationals. -/
def dotProduct : List ℚ → List ℚ → ℚ
  | x :: xs, y :: ys => x * y + dotProduct xs ys
  | _, _ => 0

/-- The squared-Euclidean-norm accumulation of CosineSimilarity
(the variable normA of the Go loop before math.Sqrt is applied). -/
def normSq (a : List ℚ) : ℚ := dotProduct a a

/-- CosineSimilarity from internal/embeddings/search.go: 0 when the lengths
differ or the vectors are empty, 0 when either accumulated squared norm is 0,
otherwise dot product divided by the product of the Euclidean norms. -/
noncomputable def CosineSimilarity (a b : List ℚ) : ℝ :=
  if a.length ≠ b.length ∨ a.length = 0 then 0
  else if normSq a = 0 ∨ normSq b = 0 then 0
  else (dotProduct a b : ℝ) / (Real.sqrt (normSq a) * Real.sqrt (normSq b))

theorem dotProduct_self_nonneg (a : List ℚ) : 0 ≤ dotProduct a a := by
  induction a with
  | nil => simp [dotProduct]
  | cons x xs ih =>
    simp only [dotProduct]
    nlinarith [mul_self_nonneg x]

theorem normSq_nil : normSq [] = 0 := rfl

theorem dotProduct_map_neg (a : List ℚ) :
    dotProduct a (a.map (fun x => -x)) = -(dotProduct a a) := by
  induction a with
  | nil => simp [dotProduct]
  | cons x xs ih =>
    simp only [List.map_cons, dotProduct, ih]
    ring

theorem normSq_map_neg (a : List ℚ) : normSq (a.map (fun x => -x)) = normSq a := by
  unfold normSq
  induction a with
  | nil => simp [dotProduct]
  | cons x xs ih =>
    simp only [List.map_cons, dotProduct, ih]
    ring

/-- C3.  CosineSimilarity returns exactly 0 on length mismatch, on empty
vectors and on zero-norm vectors; otherwise it is the dot product divided by
the product of the Euclidean norms, so that identical non-zero vectors score
exactly 1, orthogonal vectors 0 and opposite vectors −1 (the Go float64
arithmetic is idealised as exact real arithmetic). -/
theorem CosineSimilarity_spec (a b : List ℚ) :
    (a.length ≠ b.length → CosineSimilarity a b = 0) ∧
    (a = [] → CosineSimilarity a b = 0) ∧
    (normSq a = 0 ∨ normSq b = 0 → CosineSimilarity a b = 0) ∧
    (a.length = b.length → a ≠ [] → normSq a ≠ 0 → normSq b ≠ 0 →
      CosineSimilarity a b =
        (dotProduct a b : ℝ) / (Real.sqrt (normSq a) * Real.sqrt (normSq b))) ∧
    (normSq a ≠ 0 → CosineSimilarity a a = 1) ∧
    (a.length = b.length → dotProduct a b = 0 → CosineSimilarity a b = 0) ∧
    (normSq a ≠ 0 → CosineSimilarity a (a.map (fun x => -x)) = -1) := by
  refine ⟨?_, ?_, ?_, ?_, ?_, ?_, ?_⟩
  · intro h
    unfold CosineSimilarity
    split_ifs with h1 h2
    · rfl
    · rfl
    · exact absurd (Or.inl h) h1
  · intro h
    subst h
    simp [CosineSimilarity]
  · intro h
    unfold CosineSimilarity
    split_ifs with h1
    · rfl
    · rfl
  · intro hlen hne hna hnb
    unfold CosineSimilarity
    split_ifs with h1 h2
    · rcases h1 with h | h
      · exact absurd hlen h
      · exact absurd (List.length_eq_zero.mp h) hne
    · rcases h2 with h | h
      · exact absurd h hna
      · exact absurd h hnb
    · rfl
  · intro hna
    have hne : a ≠ [] := fun h => hna (by rw [h]; exact normSq_nil)
    unfold CosineSimilarity
    split_ifs with h1 h2
    · rcases h1 with h | h
      · exact absurd rfl h
      · exact absurd (List.length_eq_zero.mp h) hne
    · rcases h2 with h | h <;> exact absurd h hna
    · unfold normSq at hna ⊢
      rw [Real.mul_self_sqrt (by exact_mod_cast dotProduct_self_nonneg a)]
      exact div_self (by exact_mod_cast hna)
  · intro hlen hdot
    unfold CosineSimilarity
    split_ifs with h1 h2
    · rfl
    · rfl
    · rw [hdot]
      simp
  · intro hna
    have hne : a ≠ [] := fun h => hna (by rw [h]; exact normSq_nil)
    unfold CosineSimilarity
    split_ifs with h1 h2
    · rcases h1 with h | h
      · exact absurd (by simp) h
      · exact absurd (List.length_eq_zero.mp h) hne
    · rw [normSq_map_neg] at h2
      rcases h2 with h | h <;> exact absurd h hna
    · rw [dotProduct_map_neg, normSq_map_neg]
      unfold normSq at hna ⊢
      rw [Real.mul_self_sqrt (by exact_mod_cast dotProduct_self_nonneg a)]
      push_cast
      rw [neg_div, div_self (by exact_mod_cast hna)]

/-- Witness for C3 at concrete inputs: identical vectors score 1, orthogonal
vectors score 0, a length mismatch scores 0. -/
theorem CosineSimilarity_spec_witness :
    CosineSimilarity [(1 : ℚ), 2] [(1 : ℚ), 2] = 1 ∧
    CosineSimilarity [(1 : ℚ), 0] [(0 : ℚ), 1] = 0 ∧
    CosineSimilarity [(3 : ℚ)] [] = 0 ∧
    CosineSimilarity [(1 : ℚ), 2] ([(1 : ℚ), 2].map (fun x => -x)) = -1 :=
  ⟨(CosineSimilarity_spec [1, 2] [1, 2]).2.2.2.2.1 (by norm_num [normSq, dotProduct]),
   (CosineSimilarity_spec [1, 0] [0, 1]).2.2.2.2.2.1 rfl (by norm_num [dotProduct]),
   (CosineSimilarity_spec [3] []).1 (by decide),
   (CosineSimilarity_spec [1, 2] [1, 2]).2.2.2.2.2.2 (by norm_num [normSq, dotProduct])⟩

/-! ### String primitives shared by the Go standard library functions used
by the storage code (strings.Split, strings.TrimSpace, strings.Fields,
strings.HasPrefix), modelled on character lists. -/

/-- The code points accepted by Go unicode.IsSpace (the White_Space
property), used by strings.TrimSpace and strings.Fields. -/
def isGoSpace (c : Char) : Bool :=
  c = ' ' || c = '\t' || c = '\n' || c.val = 11 || c.val = 12 || c = '\r' ||
  c.val = 0x85 || c.val = 0xA0 || c.val = 0x1680 ||
  (0x2000 ≤ c.val && c.val ≤ 0x200A) || c.val = 0x2028 || c.val = 0x2029 ||
  c.val = 0x202F || c.val = 0x205F || c.val = 0x3000

/-- strings.Split(s, sep) for a one-character separator, on char lists:
splitting the empty list yields one empty piece, as in Go. -/
def splitOnChar (c : Char) : List Char → List (List Char)
  | [] => [[]]
  | x :: xs =>
    if x = c then [] :: splitOnChar c xs
    else
      match splitOnChar c xs with
      | [] => [[x]]
      | l :: ls => (x :: l) :: ls

/-- strings.TrimSpace on a char list: drop Go whitespace from both ends. -/
def trimChars (l : List Char) : List Char :=
  ((l.dropWhile isGoSpace).reverse.dropWhile isGoSpace).reverse

/-- strings.TrimSpace. -/
def trimSpace (s : String) : String := ⟨trimChars s.data⟩

/-- strings.HasPrefix: byte prefix in Go, character-list prefix here
(equivalent on valid UTF-8, since no encoded character is a proper prefix
of another). -/
def strStartsWith (pre s : String) : Bool := pre.data.isPrefixOf s.data

/-- strings.Fields: split around runs of Go whitespace, inner loop. -/
def fieldsAux : List Char → List Char → List (List Char)
  | [], acc => if acc.isEmpty then [] else [acc.reverse]
  | c :: cs, acc =>
    if isGoSpace c then
      if acc.isEmpty then fieldsAux cs []
      else acc.reverse :: fieldsAux cs []
    else fieldsAux cs (c :: acc)

/-- strings.Fields on a char list. -/
def fieldsChars (l : List Char) : List (List Char) := fieldsAux l []

theorem splitOnChar_ne_nil (c : Char) (l : List Char) : splitOnChar c l ≠ [] := by
  induction l with
  | nil => simp [splitOnChar]
  | cons x xs ih =>
    simp only [splitOnChar]
    split
    · simp
    · cases h : splitOnChar c xs with
      | nil => simp
      | cons l ls => simp

theorem splitOnChar_append_cons (c : Char) (a b : List Char) :
    splitOnChar c (a ++ c :: b) = splitOnChar c a ++ splitOnChar c b := by
  induction a with
  | nil => simp [splitOnChar]
  | cons x xs ih =>
    by_cases hx : x = c
    · subst hx
      simp [splitOnChar, ih]
    · simp only [List.cons_append, splitOnChar, if_neg hx]
      simp only [List.append_eq]
      rw [ih]
      cases h : splitOnChar c xs with
      | nil => exact absurd h (splitOnChar_ne_nil c xs)
      | cons l ls => simp [h]

theorem splitOnChar_of_not_mem {c : Char} {l : List Char} (h : c ∉ l) :
    splitOnChar c l = [l] := by
  induction l with
  | nil => rfl
  | cons x xs ih =>
    simp only [List.mem_cons, not_or] at h
    have hx : ¬x = c := fun he => h.1 he.symm
    simp only [splitOnChar, if_neg hx]
    rw [ih h.2]

theorem not_mem_of_mem_splitOnChar (c : Char) (l : List Char) :
    ∀ p ∈ splitOnChar c l, c ∉ p := by
  induction l with
  | nil =>
    intro p hp
    simp [splitOnChar] at hp
    simp [hp]
  | cons x xs ih =>
    intro p hp
    simp only [splitOnChar] at hp
    split at hp
    · rcases List.mem_cons.mp hp with h | h
      · simp [h]
      · exact ih p h
    · rename_i hx
      cases hsp : splitOnChar c xs with
      | nil => exact absurd hsp (splitOnChar_ne_nil c xs)
      | cons l0 ls =>
        rw [hsp] at hp
        rcases List.mem_cons.mp hp with h | h
        · subst h
          intro hmem
          rcases List.mem_cons.mp hmem with h1 | h1
          · exact hx h1.symm
          · exact ih l0 (hsp ▸ List.mem_cons_self l0 ls) h1
        · exact ih p (hsp ▸ List.mem_cons_of_mem l0 h)

theorem joinMapNL_splitOnChar (c : Char) (l : List Char) :
    ((splitOnChar c l).map (fun p => p ++ [c])).flatten = l ++ [c] := by
  induction l with
  | nil => simp [splitOnChar]
  | cons x xs ih =>
    simp only [splitOnChar]
    split
    · rename_i hx
      subst hx
      simp [ih]
    · cases h : splitOnChar c xs with
      | nil => exact absurd h (splitOnChar_ne_nil c xs)
      | cons l0 ls =>
        rw [h] at ih
        simpa using ih

theorem dropWhile_append_all {p : Char → Bool} {a : List Char} (b : List Char)
    (h : ∀ c ∈ a, p c = true) : (a ++ b).dropWhile p = b.dropWhile p := by
  induction a with
  | nil => rfl
  | cons x xs ih =>
    simp only [List.cons_append, List.dropWhile_cons, h x (List.mem_cons_self x xs)]
    exact ih (fun c hc => h c (List.mem_cons_of_mem x hc))

theorem dropWhile_append_ne_nil {p : Char → Bool} {a : List Char}
    (h : a.dropWhile p ≠ []) (b : List Char) :
    (a ++ b).dropWhile p = a.dropWhile p ++ b := by
  induction a with
  | nil => exact absurd rfl h
  | cons x xs ih =>
    by_cases hx : p x
    · simp only [List.dropWhile_cons, hx, if_true] at h ⊢
      simp only [List.cons_append, List.dropWhile_cons, hx, if_true]
      exact ih h
    · simp only [List.cons_append, List.dropWhile_cons, hx]
      simp [hx]

theorem trimChars_append_spaces {suf : List Char} (l : List Char)
    (h : ∀ c ∈ suf, isGoSpace c = true) : trimChars (l ++ suf) = trimChars l := by
  unfold trimChars
  by_cases h1 : l.dropWhile isGoSpace = []
  · rw [dropWhile_append_all suf (List.dropWhile_eq_nil_iff.mp h1), h1,
      List.dropWhile_eq_nil_iff.mpr (fun c hc => h c hc)]
  · rw [dropWhile_append_ne_nil h1 suf, List.reverse_append,
      dropWhile_append_all _ (fun c hc => h c (List.mem_reverse.mp hc))]

/-! ### Journal section names and heading conversion
(internal/models/models.go). -/

/-- ValidSections from internal/models: the five canonical section names. -/
def ValidSections : List String :=
  ["feelings", "project_notes", "user_context", "technical_insights", "world_knowledge"]

/-- IsValidSection from internal/models. -/
def IsValidSection (name : String) : Bool := ValidSections.contains name

/-- Capitalize one underscore-separated part, as SectionTitle does with
strings.ToUpper(part[:1]) + part[1:] (first character only). -/
def capPart : List Char → List Char
  | [] => []
  | c :: cs => c.toUpper :: cs

/-- SectionTitle from internal/models: snake_case name to Title Case
heading. -/
def SectionTitle (name : String) : String :=
  ⟨List.intercalate [' '] ((splitOnChar '_' name.data).map capPart)⟩

/-- SectionKey from internal/models: Title Case heading to snake_case key
(lower-case, split on whitespace, join with underscores). -/
def SectionKey (heading : String) : String :=
  ⟨List.intercalate ['_'] (fieldsChars (heading.data.map Char.toLower))⟩

/-! ### Section maps: Go map[string]string observed through lookup. -/

/-- A Go map[string]string, modelled as an association list; lookups find
the first binding, insertions replace an existing binding in place. -/
abbrev SMap : Type := List (String × String)

/-- Map lookup (first binding wins; Go maps have unique keys). -/
def lookupS : SMap → String → Option String
  | [], _ => none
  | (k1, v1) :: rest, k => if k1 = k then some v1 else lookupS rest k

/-- Map assignment m[k] = v. -/
def insertS : SMap → String → String → SMap
  | [], k, v => [(k, v)]
  | (k1, v1) :: rest, k, v =>
    if k1 = k then (k, v) :: rest else (k1, v1) :: insertS rest k v

/-! ### renderSections / parseSections (internal/storage/journal_md.go). -/

/-- The body text renderSections emits for one name found non-empty in the
map: a blank line, a heading line, the content, a final newline. -/
def sectionBlock (name content : String) : List Char :=
  '\n' :: ('#' :: '#' :: ' ' :: (SectionTitle name).data) ++ '\n' :: content.data ++ ['\n']

/-- The loop of renderSections over the canonical name list: skip names that
are absent or empty in the map, emit a block for the rest. -/
def renderSectionsBody : List String → SMap → List Char
  | [], _ => []
  | name :: rest, m =>
    (match lookupS m name with
     | none => []
     | some content => if content = "" then [] else sectionBlock name content)
    ++ renderSectionsBody rest m

/-- renderSections: canonical-order markdown body for a section map. -/
def renderSections (m : SMap) : String := ⟨renderSectionsBody ValidSections m⟩

/-- A line starting a section heading: strings.HasPrefix(line, two number
signs and a space). -/
def isHeadingLine (l : List Char) : Bool := ['#', '#', ' '].isPrefixOf l

/-- The line loop of parseSections: current section name (empty string for
none, as in Go), accumulated content with one newline appended per line,
and the map built so far.  On a heading line the previous section is saved
trimmed and a new one starts; trailing content is saved at the end. -/
def parseSectionsLoop : List (List Char) → String → List Char → SMap → SMap
  | [], cur, acc, m => if cur = "" then m else insertS m cur ⟨trimChars acc⟩
  | l :: ls, cur, acc, m =>
    if isHeadingLine l then
      let m2 := if cur = "" then m else insertS m cur ⟨trimChars acc⟩
      parseSectionsLoop ls (SectionKey ⟨l.drop 3⟩) [] m2
    else if cur = "" then parseSectionsLoop ls cur acc m
    else parseSectionsLoop ls cur (acc ++ l ++ ['\n']) m

/-- parseSections: split the body on newlines and run the line loop. -/
def parseSections (body : String) : SMap :=
  parseSectionsLoop (splitOnChar '\n' body.data) "" [] []

/-! ### Round-trip analysis of renderSections / parseSections. -/

/-- The (name, content) pairs renderSections actually emits, walking a name
list in order and keeping the names bound to a non-empty value. -/
def canonPairsOf (ns : List String) (m : SMap) : List (String × String) :=
  ns.filterMap (fun n =>
    match lookupS m n with
    | none => none
    | some v => if v = "" then none else some (n, v))

/-- The heading line emitted for a section name. -/
def headerChars (name : String) : List Char :=
  '#' :: '#' :: ' ' :: (SectionTitle name).data

/-- The lines a section block contributes after splitting on newlines:
its heading line, the lines of its content, and one empty line. -/
def blockLines (p : String × String) : List (List Char) :=
  headerChars p.1 :: (splitOnChar '\n' p.2.data ++ [[]])

theorem renderSectionsBody_eq_blocks (ns : List String) (m : SMap) :
    renderSectionsBody ns m =
      ((canonPairsOf ns m).map (fun p => sectionBlock p.1 p.2)).flatten := by
  induction ns with
  | nil => rfl
  | cons n rest ih =>
    simp only [renderSectionsBody, canonPairsOf, List.filterMap_cons]
    cases hl : lookupS m n with
    | none => simpa [canonPairsOf] using ih
    | some v =>
      by_cases hv : v = ""
      · simpa [hv, canonPairsOf] using ih
      · simp only [hv, if_neg hv]
        simpa [canonPairsOf] using congrArg (sectionBlock n v ++ ·) ih

theorem splitOnChar_cons_self (c : Char) (l : List Char) :
    splitOnChar c (c :: l) = [] :: splitOnChar c l := by
  simp [splitOnChar]

theorem splitOnChar_append_not_mem {c : Char} {a : List Char} (h : c ∉ a)
    (b : List Char) : splitOnChar c (a ++ c :: b) = a :: splitOnChar c b := by
  rw [splitOnChar_append_cons, splitOnChar_of_not_mem h]
  rfl

theorem newline_not_mem_headerChars :
    ∀ n ∈ ValidSections, '\n' ∉ headerChars n := by decide

theorem sectionKey_sectionTitle :
    ∀ n ∈ ValidSections, SectionKey (SectionTitle n) = n := by decide

theorem validSections_ne_empty : ∀ n ∈ ValidSections, n ≠ "" := by decide

theorem isHeadingLine_headerChars (n : String) :
    isHeadingLine (headerChars n) = true := by
  simp [isHeadingLine, headerChars, List.isPrefixOf]

/-- Splitting the rendered body on newlines yields one leading empty line
followed by the lines of each block. -/
theorem splitNL_blocks (ps : List (String × String))
    (hns : ∀ p ∈ ps, p.1 ∈ ValidSections) :
    splitOnChar '\n' ((ps.map (fun p => sectionBlock p.1 p.2)).flatten) =
      [] :: (ps.map blockLines).flatten := by
  induction ps with
  | nil => rfl
  | cons p rest ih =>
    obtain ⟨n, v⟩ := p
    have hn : n ∈ ValidSections := hns (n, v) (List.mem_cons_self _ _)
    have hrest : ∀ q ∈ rest, q.1 ∈ ValidSections :=
      fun q hq => hns q (List.mem_cons_of_mem _ hq)
    have harr : ((((n, v) :: rest).map (fun p => sectionBlock p.1 p.2)).flatten : List Char) =
        '\n' :: (headerChars n ++
          '\n' :: (v.data ++ '\n' :: ((rest.map (fun p => sectionBlock p.1 p.2)).flatten))) := by
      simp [sectionBlock, headerChars, List.append_assoc]
    rw [harr, splitOnChar_cons_self,
      splitOnChar_append_not_mem (newline_not_mem_headerChars n hn),
      splitOnChar_append_cons, ih hrest]
    simp [blockLines, List.append_assoc]

theorem isHeadingLine_nil : isHeadingLine [] = false := rfl

/-- Consuming non-heading lines accumulates them, each with a newline. -/
theorem parseLoop_content (lsv : List (List Char))
    (h : ∀ l ∈ lsv, isHeadingLine l = false) (k : String) (hk : k ≠ "")
    (acc : List Char) (m : SMap) (rest : List (List Char)) :
    parseSectionsLoop (lsv ++ rest) k acc m =
      parseSectionsLoop rest k (acc ++ (lsv.map (fun l => l ++ ['\n'])).flatten) m := by
  induction lsv generalizing acc with
  | nil => simp
  | cons l ls ih =>
    have hl : isHeadingLine l = false := h l (List.mem_cons_self _ _)
    have hls : ∀ x ∈ ls, isHeadingLine x = false :=
      fun x hx => h x (List.mem_cons_of_mem _ hx)
    simp only [List.cons_append, parseSectionsLoop, hl, Bool.false_eq_true, if_false,
      if_neg hk]
    simp only [List.append_eq]
    rw [ih hls (acc ++ l ++ ['\n'])]
    simp [List.append_assoc]

/-- One step of the save discipline: the combined hypotheses a rendered
content value satisfies. -/
def goodPair (p : String × String) : Prop :=
  p.1 ∈ ValidSections ∧ p.2 ≠ "" ∧ trimSpace p.2 = p.2 ∧
    ∀ l ∈ splitOnChar '\n' p.2.data, isHeadingLine l = false

theorem parseLoop_blocks (ps : List (String × String))
    (hps : ∀ p ∈ ps, goodPair p) (k : String) (hk : k ≠ "") (acc : List Char)
    (m : SMap) :
    parseSectionsLoop ((ps.map blockLines).flatten) k acc m =
      ps.foldl (fun mm p => insertS mm p.1 p.2) (insertS m k ⟨trimChars acc⟩) := by
  induction ps generalizing k acc m with
  | nil => simp [parseSectionsLoop, if_neg hk]
  | cons p rest ih =>
    obtain ⟨n, v⟩ := p
    obtain ⟨hn, hv, htrim, hlines⟩ := hps (n, v) (List.mem_cons_self _ _)
    have hrest : ∀ q ∈ rest, goodPair q := fun q hq => hps q (List.mem_cons_of_mem _ hq)
    have hflat : (((n, v) :: rest).map blockLines).flatten =
        headerChars n :: ((splitOnChar '\n' v.data ++ [[]]) ++ (rest.map blockLines).flatten) := by
      simp [blockLines, List.append_assoc]
    rw [hflat]
    simp only [parseSectionsLoop, isHeadingLine_headerChars, if_pos, if_neg hk]
    have hdrop : (headerChars n).drop 3 = (SectionTitle n).data := rfl
    rw [hdrop]
    have hkey : SectionKey ⟨(SectionTitle n).data⟩ = n := sectionKey_sectionTitle n hn
    rw [hkey]
    have hnoheads : ∀ l ∈ splitOnChar '\n' v.data ++ [[]], isHeadingLine l = false := by
      intro l hl
      rcases List.mem_append.mp hl with h1 | h1
      · exact hlines l h1
      · simp at h1
        subst h1
        rfl
    rw [parseLoop_content _ hnoheads n (validSections_ne_empty n hn) [] _ _]
    have haccv : ([] : List Char) ++
        (((splitOnChar '\n' v.data ++ [[]]).map (fun l => l ++ ['\n'])).flatten) =
        v.data ++ ['\n', '\n'] := by
      rw [List.nil_append, List.map_append, List.flatten_append, joinMapNL_splitOnChar]
      simp
    rw [haccv, ih hrest n (validSections_ne_empty n hn) _ _]
    have htv : (⟨trimChars (v.data ++ ['\n', '\n'])⟩ : String) = v := by
      rw [trimChars_append_spaces v.data (by decide)]
      exact htrim
    rw [htv]
    simp

/-- Entering the loop with no current section: the leading blank line is
skipped, the first heading starts the first section, and each block inserts
its pair. -/
theorem parseLoop_blocks_top (ps : List (String × String))
    (hps : ∀ p ∈ ps, goodPair p) (m : SMap) :
    parseSectionsLoop ([] :: (ps.map blockLines).flatten) "" [] m =
      ps.foldl (fun mm p => insertS mm p.1 p.2) m := by
  simp only [parseSectionsLoop, isHeadingLine_nil, Bool.false_eq_true, if_false, if_pos rfl]
  cases ps with
  | nil => rfl
  | cons p rest =>
    obtain ⟨n, v⟩ := p
    obtain ⟨hn, hv, htrim, hlines⟩ := hps (n, v) (List.mem_cons_self _ _)
    have hrest : ∀ q ∈ rest, goodPair q := fun q hq => hps q (List.mem_cons_of_mem _ hq)
    have hflat : (((n, v) :: rest).map blockLines).flatten =
        headerChars n :: ((splitOnChar '\n' v.data ++ [[]]) ++ (rest.map blockLines).flatten) := by
      simp [blockLines, List.append_assoc]
    rw [hflat]
    simp only [parseSectionsLoop, isHeadingLine_headerChars, if_pos, if_pos rfl]
    have hdrop : (headerChars n).drop 3 = (SectionTitle n).data := rfl
    rw [hdrop, sectionKey_sectionTitle n hn]
    have hnoheads : ∀ l ∈ splitOnChar '\n' v.data ++ [[]], isHeadingLine l = false := by
      intro l hl
      rcases List.mem_append.mp hl with h1 | h1
      · exact hlines l h1
      · simp at h1
        subst h1
        rfl
    rw [parseLoop_content _ hnoheads n (validSections_ne_empty n hn) [] _ _]
    have haccv : ([] : List Char) ++
        (((splitOnChar '\n' v.data ++ [[]]).map (fun l => l ++ ['\n'])).flatten) =
        v.data ++ ['\n', '\n'] := by
      rw [List.nil_append, List.map_append, List.flatten_append, joinMapNL_splitOnChar]
      simp
    rw [haccv, parseLoop_blocks rest hrest n (validSections_ne_empty n hn) _ _]
    have htv : (⟨trimChars (v.data ++ ['\n', '\n'])⟩ : String) = v := by
      rw [trimChars_append_spaces v.data (by decide)]
      exact htrim
    rw [htv]
    simp

theorem lookupS_mem {m : SMap} {k v : String} (h : lookupS m k = some v) :
    (k, v) ∈ m := by
  induction m with
  | nil => exact absurd h (by simp [lookupS])
  | cons p rest ih =>
    obtain ⟨k1, v1⟩ := p
    have h3 : (if k1 = k then some v1 else lookupS rest k) = some v := h
    by_cases hk : k1 = k
    · rw [if_pos hk] at h3
      obtain rfl := Option.some_inj.mp h3
      subst hk
      exact List.mem_cons_self _ _
    · rw [if_neg hk] at h3
      exact List.mem_cons_of_mem _ (ih h3)

theorem lookupS_eq_none {m : SMap} {k : String} (h : ∀ p ∈ m, p.1 ≠ k) :
    lookupS m k = none := by
  induction m with
  | nil => rfl
  | cons p rest ih =>
    obtain ⟨k1, v1⟩ := p
    simp only [lookupS, if_neg (h (k1, v1) (List.mem_cons_self _ _))]
    exact ih (fun q hq => h q (List.mem_cons_of_mem _ hq))

theorem insertS_append {m : SMap} {k : String} (v : String)
    (h : ∀ p ∈ m, p.1 ≠ k) : insertS m k v = m ++ [(k, v)] := by
  induction m with
  | nil => rfl
  | cons p rest ih =>
    obtain ⟨k1, v1⟩ := p
    simp only [insertS, if_neg (h (k1, v1) (List.mem_cons_self _ _)), List.cons_append]
    rw [ih (fun q hq => h q (List.mem_cons_of_mem _ hq))]

theorem foldl_insertS_append (ps : List (String × String)) (m : SMap)
    (hdis : ∀ p ∈ ps, ∀ q ∈ m, q.1 ≠ p.1)
    (hnd : ps.Pairwise (fun p q => p.1 ≠ q.1)) :
    ps.foldl (fun mm p => insertS mm p.1 p.2) m = m ++ ps := by
  induction ps generalizing m with
  | nil => simp
  | cons p rest ih =>
    simp only [List.foldl_cons]
    rw [insertS_append p.2 (fun q hq => hdis p (List.mem_cons_self _ _) q hq)]
    rw [ih (m ++ [p]) ?_ (List.Pairwise.of_cons hnd)]
    · simp
    · intro x hx q hq
      rcases List.mem_append.mp hq with h1 | h1
      · exact hdis x (List.mem_cons_of_mem _ hx) q h1
      · simp only [List.mem_singleton] at h1
        subst h1
        exact (List.pairwise_cons.mp hnd).1 x hx

theorem mem_canonPairsOf {ns : List String} {m : SMap} {p : String × String}
    (h : p ∈ canonPairsOf ns m) :
    p.1 ∈ ns ∧ lookupS m p.1 = some p.2 ∧ p.2 ≠ "" := by
  obtain ⟨n, hn, hf⟩ := List.mem_filterMap.mp h
  cases hl : lookupS m n with
  | none =>
    rw [hl] at hf
    exact absurd hf (by simp)
  | some v =>
    rw [hl] at hf
    have hf2 : (if v = "" then none else some (n, v)) = some p := hf
    by_cases hv : v = ""
    · rw [if_pos hv] at hf2
      exact absurd hf2 (by simp)
    · rw [if_neg hv] at hf2
      obtain rfl := Option.some_inj.mp hf2
      exact ⟨hn, hl, hv⟩

theorem canonPairsOf_pairwise {ns : List String} (m : SMap) (hnd : ns.Nodup) :
    (canonPairsOf ns m).Pairwise (fun p q => p.1 ≠ q.1) := by
  induction ns with
  | nil => exact List.Pairwise.nil
  | cons n rest ih =>
    have hn : n ∉ rest := (List.nodup_cons.mp hnd).1
    have hrest := ih (List.nodup_cons.mp hnd).2
    simp only [canonPairsOf, List.filterMap_cons]
    cases hl : lookupS m n with
    | none => exact hrest
    | some v =>
      by_cases hv : v = ""
      · simp only [if_pos hv]
        exact hrest
      · simp only [if_neg hv]
        refine List.pairwise_cons.mpr ⟨?_, hrest⟩
        intro q hq he
        have h1 : q.1 ∈ rest := (mem_canonPairsOf hq).1
        have h2 : n = q.1 := he
        rw [h2] at hn
        exact hn h1

theorem lookup_canonPairs_none {ns : List String} {m : SMap} {k : String}
    (h : k ∉ ns) : lookupS (canonPairsOf ns m) k = none := by
  refine lookupS_eq_none (fun p hp => ?_)
  have := (mem_canonPairsOf hp).1
  exact fun he => h (he ▸ this)

theorem lookup_canonPairs (ns : List String) (m : SMap) (hnd : ns.Nodup)
    (k : String) :
    lookupS (canonPairsOf ns m) k =
      if k ∈ ns then
        (lookupS m k).bind (fun v => if v = "" then none else some v)
      else none := by
  induction ns with
  | nil => rfl
  | cons n rest ih =>
    have hn : n ∉ rest := (List.nodup_cons.mp hnd).1
    have ihr := ih (List.nodup_cons.mp hnd).2
    by_cases hk : k = n
    · subst hk
      cases hl : lookupS m k with
      | none =>
        have hstep : canonPairsOf (k :: rest) m = canonPairsOf rest m := by
          simp only [canonPairsOf, List.filterMap_cons, hl]
        rw [hstep, lookup_canonPairs_none hn]
        simp [hl]
      | some v =>
        by_cases hv : v = ""
        · have hstep : canonPairsOf (k :: rest) m = canonPairsOf rest m := by
            simp only [canonPairsOf, List.filterMap_cons, hl]
            simp [hv]
          rw [hstep, lookup_canonPairs_none hn]
          simp [hl, hv]
        · have hstep : canonPairsOf (k :: rest) m = (k, v) :: canonPairsOf rest m := by
            simp only [canonPairsOf, List.filterMap_cons, hl]
            simp [hv]
          rw [hstep]
          have h3 : lookupS ((k, v) :: canonPairsOf rest m) k =
              if k = k then some v else lookupS (canonPairsOf rest m) k := rfl
          rw [h3, if_pos rfl]
          simp [hl, hv]
    · have hstep : lookupS (canonPairsOf (n :: rest) m) k =
          lookupS (canonPairsOf rest m) k := by
        cases hl : lookupS m n with
        | none =>
          have h4 : canonPairsOf (n :: rest) m = canonPairsOf rest m := by
            simp only [canonPairsOf, List.filterMap_cons, hl]
          rw [h4]
        | some v =>
          by_cases hv : v = ""
          · have h4 : canonPairsOf (n :: rest) m = canonPairsOf rest m := by
              simp only [canonPairsOf, List.filterMap_cons, hl]
              simp [hv]
            rw [h4]
          · have h4 : canonPairsOf (n :: rest) m = (n, v) :: canonPairsOf rest m := by
              simp only [canonPairsOf, List.filterMap_cons, hl]
              simp [hv]
            rw [h4]
            have h5 : lookupS ((n, v) :: canonPairsOf rest m) k =
                if n = k then some v else lookupS (canonPairsOf rest m) k := rfl
            rw [h5, if_neg (fun he => hk he.symm)]
      rw [hstep, ihr]
      simp [List.mem_cons, hk]

theorem validSections_nodup : ValidSections.Nodup := by decide

/-- Core of the C2 round trip: parsing the rendered body reproduces the
section map, observed through lookup, for maps with canonical keys and
non-empty, trimmed, heading-free values. -/
theorem lookup_parseSections_renderSections (m : SMap)
    (hval : ∀ p ∈ m, p.1 ∈ ValidSections)
    (hne : ∀ p ∈ m, p.2 ≠ "")
    (htrim : ∀ p ∈ m, trimSpace p.2 = p.2)
    (hlines : ∀ p ∈ m, ∀ l ∈ splitOnChar '\n' p.2.data, isHeadingLine l = false)
    (k : String) :
    lookupS (parseSections (renderSections m)) k = lookupS m k := by
  have hgood : ∀ p ∈ canonPairsOf ValidSections m, goodPair p := by
    intro p hp
    obtain ⟨h1, h2, h3⟩ := mem_canonPairsOf hp
    have hpm : (p.1, p.2) ∈ m := lookupS_mem h2
    exact ⟨h1, h3, htrim _ hpm, hlines _ hpm⟩
  have hsplit : splitOnChar '\n' (renderSections m).data =
      [] :: ((canonPairsOf ValidSections m).map blockLines).flatten := by
    show splitOnChar '\n' (renderSectionsBody ValidSections m) = _
    rw [renderSectionsBody_eq_blocks]
    exact splitNL_blocks _ (fun p hp => (mem_canonPairsOf hp).1)
  have hparse : parseSections (renderSections m) = canonPairsOf ValidSections m := by
    unfold parseSections
    rw [hsplit, parseLoop_blocks_top _ hgood,
      foldl_insertS_append _ [] (by simp) (canonPairsOf_pairwise m validSections_nodup)]
    rfl
  rw [hparse, lookup_canonPairs _ _ validSections_nodup]
  by_cases hk : k ∈ ValidSections
  · rw [if_pos hk]
    cases hl : lookupS m k with
    | none => rfl
    | some v =>
      have : v ≠ "" := hne _ (lookupS_mem hl)
      simp [this]
  · rw [if_neg hk]
    refine (lookupS_eq_none (fun p hp he => ?_)).symm
    exact hk (he ▸ hval p hp)

/-! ### UUIDs (google/uuid, external) and timestamps. -/

/-- Lower-case hexadecimal digit. -/
def isLowerHexDigit (c : Char) : Bool :=
  ('0' ≤ c && c ≤ '9') || ('a' ≤ c && c ≤ 'f')

/-- Canonical textual UUID: five dash-separated groups of lower-case hex
digits with lengths 8-4-4-4-12. -/
def isCanonUUID (s : String) : Bool :=
  match splitOnChar '-' s.data with
  | [a, b, c, d, e] =>
    (a.length == 8) && (b.length == 4) && (c.length == 4) && (d.length == 4) &&
      (e.length == 12) && (a ++ b ++ c ++ d ++ e).all isLowerHexDigit
  | _ => false

/-- Modelled from the spec: google/uuid is an external library; a UUID value
is represented by its canonical string (uuid.String always produces this
form).  uuid.Parse additionally accepts upper-case hex and three other
textual forms, which never occur in this repository's files and are not
modelled. -/
def UUID : Type := { s : String // isCanonUUID s = true }

instance : DecidableEq UUID := fun a b =>
  decidable_of_iff (a.val = b.val) Subtype.ext_iff.symm

/-- uuid.String: the canonical form. -/
def uuidString (u : UUID) : String := u.val

/-- Modelled from the spec: uuid.Parse, restricted to the canonical form
(it fails exactly when the argument is not a parseable UUID). -/
def uuidParse (s : String) : Option UUID :=
  if h : isCanonUUID s = true then some ⟨s, h⟩ else none

theorem uuidParse_uuidString (u : UUID) : uuidParse (uuidString u) = some u := by
  unfold uuidParse uuidString
  rw [dif_pos u.prop]
  exact congrArg some (Subtype.ext rfl)

/-- The all-zero UUID, for concrete witnesses. -/
def uuidZero : UUID := ⟨"00000000-0000-0000-0000-000000000000", by decide⟩

/-- Go time.Time, modelled as microseconds since the Unix epoch.  The
storage code only formats timestamps, compares them, truncates them to day
boundaries and subtracts whole days, all exact in this representation. -/
abbrev Micros := Int

/-- Microseconds in a day. -/
def microsPerDay : Int := 86400000000

/-- The day index of a timestamp (floor division, as Go Truncate rounds
down for the always-positive times involved). -/
def dayOf (t : Micros) : Int := t.ediv microsPerDay

/-! ### Journal record files (internal/storage/journal_md.go). -/

/-- journalFrontmatter: the id / date / type metadata block of a journal
file.  The Go field Type is named typ here (Type is reserved in Lean).
The date field holds the parsed timestamp; none models a missing or
unparseable date string (mdstore.FormatTime / ParseTime are external and
modelled from the spec as a faithful timestamp codec). -/
structure journalFrontmatter where
  id : String
  date : Option Micros
  typ : String
deriving DecidableEq

/-- Modelled from the spec (§4.1): a record file as mdstore.ParseFrontmatter
sees it — either a parsed metadata block plus body, or no metadata block
(ParseFrontmatter returns an empty YAML string). -/
inductive JFileContent where
  | withFM (fm : journalFrontmatter) (body : String)
  | noFM
deriving DecidableEq

/-- Error taxonomy of the journal store operations modelled here. -/
inductive JErr where
  | pathViolation
  | ioError
  | invalidFormat
deriving DecidableEq

/-- JournalEntry from internal/models (field Type named Typ). -/
structure JournalEntry where
  ID : UUID
  Sections : SMap
  CreatedAt : Micros
  FilePath : String
  Typ : String
deriving DecidableEq

/-- parseJournalEntry: require a frontmatter block, a parseable UUID and a
parseable date, then split the body into sections. -/
def parseJournalEntry (path : String) (c : JFileContent) :
    Except JErr JournalEntry :=
  match c with
  | .noFM => .error .invalidFormat
  | .withFM fm body =>
    match uuidParse fm.id with
    | none => .error .invalidFormat
    | some id =>
      match fm.date with
      | none => .error .invalidFormat
      | some t => .ok ⟨id, parseSections body, t, path, fm.typ⟩

/-- The file content WriteEntry renders for an entry: frontmatter with the
entry's id, timestamp and type, and the canonical-order section body. -/
def writeEntryContent (e : JournalEntry) : JFileContent :=
  .withFM ⟨uuidString e.ID, some e.CreatedAt, e.Typ⟩ (renderSections e.Sections)

/-- C2 (amended).  Decoding the encoded record reproduces identifier, type,
timestamp and section map, for entries whose sections have canonical names
and non-empty values that equal their whitespace-trimmed form and contain
no line starting a markdown heading. -/
theorem parseJournalEntry_writeEntryContent (id : UUID) (t : Micros)
    (ty : String) (m : SMap) (path fp : String)
    (hnonempty : m ≠ [])
    (hval : ∀ p ∈ m, p.1 ∈ ValidSections)
    (hne : ∀ p ∈ m, p.2 ≠ "")
    (htrim : ∀ p ∈ m, trimSpace p.2 = p.2)
    (hlines : ∀ p ∈ m, ∀ l ∈ splitOnChar '\n' p.2.data, isHeadingLine l = false) :
    parseJournalEntry path (writeEntryContent ⟨id, m, t, fp, ty⟩) =
      .ok ⟨id, parseSections (renderSections m), t, path, ty⟩ ∧
    ∀ k, lookupS (parseSections (renderSections m)) k = lookupS m k := by
  constructor
  · unfold writeEntryContent parseJournalEntry
    simp only [uuidParse_uuidString]
  · exact fun k => lookup_parseSections_renderSections m hval hne htrim hlines k

/-- Witness for C2 at a concrete entry with two canonical sections. -/
theorem parseJournalEntry_writeEntryContent_witness :
    parseJournalEntry "a/b.md"
        (writeEntryContent ⟨uuidZero,
          [("feelings", "great"), ("project_notes", "pulse work")], 5, "", "user"⟩) =
      .ok ⟨uuidZero,
        parseSections (renderSections
          [("feelings", "great"), ("project_notes", "pulse work")]), 5, "a/b.md", "user"⟩ ∧
    lookupS (parseSections (renderSections
        [("feelings", "great"), ("project_notes", "pulse work")])) "feelings" =
      some "great" := by
  have h := parseJournalEntry_writeEntryContent uuidZero 5 "user"
    [("feelings", "great"), ("project_notes", "pulse work")] "a/b.md" ""
    (by decide) (by decide) (by decide) (by decide) (by decide)
  refine ⟨h.1, ?_⟩
  rw [h.2 "feelings"]
  decide

/-- Counterexample to C2 as stated: a non-empty section value consisting of
a single space is trimmed away by the decoder, so the decoded section map
differs from the original. -/
theorem parseJournalEntry_writeEntryContent_cex :
    parseJournalEntry "p" (writeEntryContent
        ⟨uuidZero, [("feelings", " ")], 0, "", "user"⟩) =
      .ok ⟨uuidZero, [("feelings", "")], 0, "p", "user"⟩ ∧
    lookupS [("feelings", "")] "feelings" ≠ lookupS [("feelings", " ")] "feelings" := by
  constructor
  · rfl
  · decide

/-! ### Path resolution (path/filepath on Unix): Clean, Abs, Join,
and the ReadEntry containment check. -/

/-- Path segments: split on the separator. -/
def segsOf (l : List Char) : List (List Char) := splitOnChar '/' l

/-- The segment stack of filepath.Clean: empty and dot segments are
dropped; a dotdot pops the stack, except that at the top of a rooted path
it is dropped and at the top of a relative path it is kept. -/
def cleanStack : List (List Char) → List (List Char) → Bool → List (List Char)
  | [], stack, _ => stack
  | s :: rest, stack, rooted =>
    if s = [] ∨ s = ['.'] then cleanStack rest stack rooted
    else if s = ['.', '.'] then
      match stack with
      | top :: stk2 =>
        if top = ['.', '.'] then cleanStack rest (s :: (top :: stk2)) rooted
        else cleanStack rest stk2 rooted
      | [] =>
        if rooted then cleanStack rest [] rooted
        else cleanStack rest [s] rooted
    else cleanStack rest (s :: stack) rooted

/-- The cleaned segment list of a path with the given rootedness. -/
def cleanSegs (l : List (List Char)) (rooted : Bool) : List (List Char) :=
  (cleanStack l [] rooted).reverse

/-- Whether the char list denotes an absolute (rooted) path. -/
def isAbsChars : List Char → Bool
  | [] => false
  | c :: _ => c == '/'

/-- strings.Join with the path separator, structured for induction. -/
def joinSegs : List (List Char) → List Char
  | [] => []
  | [s] => s
  | s :: s2 :: rest => s ++ '/' :: joinSegs (s2 :: rest)

/-- filepath.Clean on a char list. -/
def cleanChars (l : List Char) : List Char :=
  if isAbsChars l then '/' :: joinSegs (cleanSegs (segsOf l) true)
  else if cleanSegs (segsOf l) false = [] then ['.']
  else joinSegs (cleanSegs (segsOf l) false)

/-- filepath.Clean. -/
def cleanPath (p : String) : String := ⟨cleanChars p.data⟩

/-- filepath.Abs: clean an absolute path, otherwise join onto the working
directory and clean. -/
def absPath (cwd p : String) : String :=
  if isAbsChars p.data then cleanPath p else cleanPath (cwd ++ "/" ++ p)

/-- filepath.Join of two elements: empty elements are dropped, the result
is cleaned; joining two empties gives the empty string. -/
def joinPath (a b : String) : String :=
  if a = "" then (if b = "" then "" else cleanPath b)
  else if b = "" then cleanPath a
  else cleanPath (a ++ "/" ++ b)

/-- ReadEntry from internal/storage/journal_md.go: resolve the argument to
an absolute path, reject it unless it extends one of the two roots followed
by a separator, then read and decode.  The filesystem is a map from
absolute cleaned paths to file contents (none models a read error or a
missing file). -/
def ReadEntry (projectPath userPath cwd : String)
    (fs : String → Option JFileContent) (path : String) :
    Except JErr JournalEntry :=
  let ap := absPath cwd path
  if ¬ strStartsWith (absPath cwd projectPath ++ "/") ap ∧
      ¬ strStartsWith (absPath cwd userPath ++ "/") ap then
    .error .pathViolation
  else
    match fs ap with
    | none => .error .ioError
    | some c => parseJournalEntry ap c

/-- The segment list of the absolute resolution of a path, dotdot segments
resolved — the spec-side notion of where a path points. -/
def resolvedSegs (cwd p : String) : List (List Char) :=
  if isAbsChars p.data then cleanSegs (segsOf p.data) true
  else cleanSegs (segsOf (cwd ++ "/" ++ p).data) true

/-- Spec-side containment: the resolution of p lies strictly inside the
resolution of root (proper descendant). -/
def strictlyInside (cwd root p : String) : Prop :=
  (resolvedSegs cwd root).isPrefixOf (resolvedSegs cwd p) = true ∧
    resolvedSegs cwd root ≠ resolvedSegs cwd p

instance (cwd root p : String) : Decidable (strictlyInside cwd root p) := by
  unfold strictlyInside
  infer_instance

theorem cleanStack_skip {s : List Char} (h : s = [] ∨ s = ['.'])
    (rest stk : List (List Char)) (rooted : Bool) :
    cleanStack (s :: rest) stk rooted = cleanStack rest stk rooted := by
  conv_lhs => unfold cleanStack
  rw [if_pos h]

theorem cleanStack_dd_push {s top : List Char} (h1 : ¬(s = [] ∨ s = ['.']))
    (h2 : s = ['.', '.']) (h3 : top = ['.', '.']) (rest stk2 : List (List Char))
    (rooted : Bool) :
    cleanStack (s :: rest) (top :: stk2) rooted =
      cleanStack rest (s :: top :: stk2) rooted := by
  conv_lhs => unfold cleanStack
  rw [if_neg h1, if_pos h2]
  show (if top = ['.', '.'] then cleanStack rest (s :: top :: stk2) rooted
    else cleanStack rest stk2 rooted) = _
  rw [if_pos h3]

theorem cleanStack_dd_pop {s top : List Char} (h1 : ¬(s = [] ∨ s = ['.']))
    (h2 : s = ['.', '.']) (h3 : ¬top = ['.', '.']) (rest stk2 : List (List Char))
    (rooted : Bool) :
    cleanStack (s :: rest) (top :: stk2) rooted = cleanStack rest stk2 rooted := by
  conv_lhs => unfold cleanStack
  rw [if_neg h1, if_pos h2]
  show (if top = ['.', '.'] then cleanStack rest (s :: top :: stk2) rooted
    else cleanStack rest stk2 rooted) = _
  rw [if_neg h3]

theorem cleanStack_dd_empty {s : List Char} (h1 : ¬(s = [] ∨ s = ['.']))
    (h2 : s = ['.', '.']) (rest : List (List Char)) (rooted : Bool) :
    cleanStack (s :: rest) [] rooted =
      if rooted then cleanStack rest [] rooted else cleanStack rest [s] rooted := by
  conv_lhs => unfold cleanStack
  rw [if_neg h1, if_pos h2]

theorem cleanStack_push {s : List Char} (h1 : ¬(s = [] ∨ s = ['.']))
    (h2 : ¬s = ['.', '.']) (rest stk : List (List Char)) (rooted : Bool) :
    cleanStack (s :: rest) stk rooted = cleanStack rest (s :: stk) rooted := by
  conv_lhs => unfold cleanStack
  rw [if_neg h1, if_neg h2]

theorem mem_cleanStack {l : List (List Char)} {stk : List (List Char)}
    {rooted : Bool} :
    ∀ x ∈ cleanStack l stk rooted, (x ∈ l ∧ x ≠ []) ∨ x ∈ stk := by
  induction l generalizing stk with
  | nil =>
    intro x hx
    exact Or.inr hx
  | cons s rest ih =>
    intro x hx
    by_cases h1 : s = [] ∨ s = ['.']
    · rw [cleanStack_skip h1] at hx
      rcases ih x hx with h | h
      · exact Or.inl ⟨List.mem_cons_of_mem _ h.1, h.2⟩
      · exact Or.inr h
    · by_cases h2 : s = ['.', '.']
      · cases stk with
        | cons top stk2 =>
          by_cases h3 : top = ['.', '.']
          · rw [cleanStack_dd_push h1 h2 h3] at hx
            rcases ih x hx with h | h
            · exact Or.inl ⟨List.mem_cons_of_mem _ h.1, h.2⟩
            · rcases List.mem_cons.mp h with h4 | h4
              · subst h4
                exact Or.inl ⟨List.mem_cons_self _ _, by rw [h2]; simp⟩
              · exact Or.inr h4
          · rw [cleanStack_dd_pop h1 h2 h3] at hx
            rcases ih x hx with h | h
            · exact Or.inl ⟨List.mem_cons_of_mem _ h.1, h.2⟩
            · exact Or.inr (List.mem_cons_of_mem _ h)
        | nil =>
          rw [cleanStack_dd_empty h1 h2] at hx
          by_cases hr : rooted = true
          · rw [if_pos hr] at hx
            rcases ih x hx with h | h
            · exact Or.inl ⟨List.mem_cons_of_mem _ h.1, h.2⟩
            · exact absurd h (List.not_mem_nil x)
          · rw [if_neg hr] at hx
            rcases ih x hx with h | h
            · exact Or.inl ⟨List.mem_cons_of_mem _ h.1, h.2⟩
            · rcases List.mem_cons.mp h with h4 | h4
              · subst h4
                exact Or.inl ⟨List.mem_cons_self _ _, by rw [h2]; simp⟩
              · exact absurd h4 (List.not_mem_nil x)
      · rw [cleanStack_push h1 h2] at hx
        rcases ih x hx with h | h
        · exact Or.inl ⟨List.mem_cons_of_mem _ h.1, h.2⟩
        · rcases List.mem_cons.mp h with h4 | h4
          · subst h4
            refine Or.inl ⟨List.mem_cons_self _ _, ?_⟩
            intro he
            exact h1 (Or.inl he)
          · exact Or.inr h4

theorem resolvedSegs_wf (cwd p : String) :
    ∀ s ∈ resolvedSegs cwd p, '/' ∉ s ∧ s ≠ [] := by
  intro s hs
  unfold resolvedSegs at hs
  split at hs
  · rcases mem_cleanStack s (List.mem_reverse.mp hs) with h | h
    · exact ⟨not_mem_of_mem_splitOnChar '/' p.data s h.1, h.2⟩
    · exact absurd h (List.not_mem_nil s)
  · rcases mem_cleanStack s (List.mem_reverse.mp hs) with h | h
    · exact ⟨not_mem_of_mem_splitOnChar '/' (cwd ++ "/" ++ p).data s h.1, h.2⟩
    · exact absurd h (List.not_mem_nil s)

/-- A no-separator segment followed by a separator determines itself: the
key cancellation step of the prefix bridge. -/
theorem seg_slash_isPrefix {x y : List Char} (hx : '/' ∉ x) (hy : '/' ∉ y)
    (u w : List Char) :
    (x ++ '/' :: u <+: y ++ '/' :: w) ↔ (x = y ∧ u <+: w) := by
  induction x generalizing y with
  | nil =>
    cases y with
    | nil => simp
    | cons d y2 =>
      simp only [List.nil_append, List.cons_append]
      constructor
      · intro h
        rcases (List.cons_prefix_cons.mp h) with ⟨he, _⟩
        exact absurd he.symm (fun hd => hy (hd ▸ List.mem_cons_self d y2))
      · intro h
        exact absurd h.1 (by simp)
  | cons c x2 ih =>
    cases y with
    | nil =>
      simp only [List.cons_append, List.nil_append]
      constructor
      · intro h
        rcases (List.cons_prefix_cons.mp h) with ⟨he, _⟩
        exact absurd he (fun hd => hx (hd ▸ List.mem_cons_self c x2))
      · intro h
        exact absurd h.1 (by simp)
    | cons d y2 =>
      simp only [List.cons_append, List.cons_prefix_cons]
      have hx2 : '/' ∉ x2 := fun h => hx (List.mem_cons_of_mem _ h)
      have hy2 : '/' ∉ y2 := fun h => hy (List.mem_cons_of_mem _ h)
      rw [ih hx2 hy2]
      constructor
      · rintro ⟨h1, h2, h3⟩
        subst h1
        subst h2
        exact ⟨rfl, h3⟩
      · rintro ⟨h1, h2⟩
        injection h1 with hcd hxy
        exact ⟨hcd, hxy, h2⟩

theorem prefix_mem {l₁ l₂ : List Char} {c : Char} (h : l₁ <+: l₂) (hc : c ∈ l₁) :
    c ∈ l₂ := h.sublist.mem hc

/-- The prefix bridge: the string-level check absRoot ++ "/" is a prefix of
absPath coincides with strict segment-level containment, for cleaned
segment lists (separator-free, non-empty segments) with a non-empty root. -/
theorem interSlash_strict (a b : List (List Char))
    (ha : ∀ s ∈ a, '/' ∉ s) (hb : ∀ s ∈ b, '/' ∉ s ∧ s ≠ [])
    (hane : a ≠ []) :
    (joinSegs a ++ ['/'] <+: joinSegs b) ↔ (a <+: b ∧ a ≠ b) := by
  induction a generalizing b with
  | nil => exact absurd rfl hane
  | cons x a2 ih =>
    have hx : '/' ∉ x := ha x (List.mem_cons_self _ _)
    cases a2 with
    | nil =>
      show (x ++ ['/'] <+: joinSegs b) ↔ _
      cases b with
      | nil =>
        simp only [joinSegs, List.prefix_nil, List.append_eq_nil]
        constructor
        · rintro ⟨-, h⟩
          exact absurd h (by simp)
        · rintro ⟨h, -⟩
          exact absurd h (by simp)
      | cons y b2 =>
        cases b2 with
        | nil =>
          have hy : '/' ∉ y := (hb y (List.mem_cons_self _ _)).1
          show (x ++ ['/'] <+: y) ↔ _
          constructor
          · intro h
            exact absurd (prefix_mem h (by simp)) hy
          · rintro ⟨h1, h2⟩
            rcases List.cons_prefix_cons.mp h1 with ⟨rfl, -⟩
            exact absurd rfl h2
        | cons y2 b3 =>
          have hy : '/' ∉ y := (hb y (List.mem_cons_self _ _)).1
          show (x ++ '/' :: [] <+: y ++ '/' :: joinSegs (y2 :: b3)) ↔ _
          rw [seg_slash_isPrefix hx hy]
          constructor
          · rintro ⟨rfl, -⟩
            exact ⟨List.cons_prefix_cons.mpr ⟨rfl, List.nil_prefix⟩, by simp⟩
          · rintro ⟨h1, -⟩
            rcases List.cons_prefix_cons.mp h1 with ⟨rfl, -⟩
            exact ⟨rfl, List.nil_prefix⟩
    | cons x2 a3 =>
      have hx2 : '/' ∉ x2 := ha x2 (List.mem_cons_of_mem _ (List.mem_cons_self _ _))
      have ha23 : ∀ s ∈ x2 :: a3, '/' ∉ s := fun s hs => ha s (List.mem_cons_of_mem _ hs)
      have harr : joinSegs (x :: x2 :: a3) ++ ['/'] =
          x ++ '/' :: (joinSegs (x2 :: a3) ++ ['/']) := by
        show (x ++ '/' :: joinSegs (x2 :: a3)) ++ ['/'] = _
        simp [List.append_assoc]
      rw [harr]
      cases b with
      | nil =>
        show (x ++ '/' :: _ <+: []) ↔ _
        constructor
        · intro h
          exact absurd (List.prefix_nil.mp h) (by simp)
        · rintro ⟨h, -⟩
          exact absurd (List.prefix_nil.mp h) (by simp)
      | cons y b2 =>
        cases b2 with
        | nil =>
          have hy : '/' ∉ y := (hb y (List.mem_cons_self _ _)).1
          show (x ++ '/' :: _ <+: y) ↔ _
          constructor
          · intro h
            exact absurd (prefix_mem h (by simp)) hy
          · rintro ⟨h1, -⟩
            have := h1.length_le
            simp at this
        | cons y2 b3 =>
          have hy : '/' ∉ y := (hb y (List.mem_cons_self _ _)).1
          have hb23 : ∀ s ∈ y2 :: b3, '/' ∉ s ∧ s ≠ [] :=
            fun s hs => hb s (List.mem_cons_of_mem _ hs)
          show (x ++ '/' :: (joinSegs (x2 :: a3) ++ ['/']) <+:
              y ++ '/' :: joinSegs (y2 :: b3)) ↔ _
          rw [seg_slash_isPrefix hx hy, ih (y2 :: b3) ha23 hb23 (by simp)]
          constructor
          · rintro ⟨rfl, h2, h3⟩
            refine ⟨List.cons_prefix_cons.mpr ⟨rfl, h2⟩, ?_⟩
            intro he
            injection he with he1 he2
            exact h3 he2
          · rintro ⟨h1, h2⟩
            rcases List.cons_prefix_cons.mp h1 with ⟨rfl, h3⟩
            refine ⟨rfl, h3, ?_⟩
            intro he
            exact h2 (by rw [he])

theorem isAbsChars_append_left {x : List Char} (y : List Char)
    (hx : isAbsChars x = true) : isAbsChars (x ++ y) = true := by
  cases x with
  | nil => exact absurd hx (by simp [isAbsChars])
  | cons c cs =>
    have : c = '/' := by
      have h2 : (c == '/') = true := hx
      exact beq_iff_eq.mp h2
    subst this
    rfl

/-- On an absolute working directory, filepath.Abs produces the separator
followed by the joined resolved segments. -/
theorem absPath_eq (cwd p : String) (hcwd : isAbsChars cwd.data = true) :
    absPath cwd p = ⟨'/' :: joinSegs (resolvedSegs cwd p)⟩ := by
  unfold absPath resolvedSegs cleanPath cleanChars
  by_cases hp : isAbsChars p.data = true
  · simp [hp]
  · have hca : isAbsChars (cwd.data ++ '/' :: p.data) = true :=
      isAbsChars_append_left _ hcwd
    simp [hp, String.data_append, hca]

/-- The string-prefix check of ReadEntry coincides with strict spec-side
containment, for a root whose resolution is non-empty. -/
theorem strStartsWith_iff_strictlyInside (cwd root p : String)
    (hcwd : isAbsChars cwd.data = true)
    (hroot : resolvedSegs cwd root ≠ []) :
    strStartsWith (absPath cwd root ++ "/") (absPath cwd p) = true ↔
      strictlyInside cwd root p := by
  rw [absPath_eq cwd root hcwd, absPath_eq cwd p hcwd]
  unfold strStartsWith
  rw [String.data_append]
  show ((('/' :: joinSegs (resolvedSegs cwd root)) ++ ['/']).isPrefixOf
      ('/' :: joinSegs (resolvedSegs cwd p)) = true) ↔ _
  rw [List.isPrefixOf_iff_prefix]
  have hstep : (('/' :: joinSegs (resolvedSegs cwd root)) ++ ['/'] <+:
      ('/' :: joinSegs (resolvedSegs cwd p))) ↔
      (joinSegs (resolvedSegs cwd root) ++ ['/'] <+: joinSegs (resolvedSegs cwd p)) := by
    rw [List.cons_append, List.cons_prefix_cons]
    simp
  rw [hstep, interSlash_strict _ _
    (fun s hs => (resolvedSegs_wf cwd root s hs).1)
    (fun s hs => resolvedSegs_wf cwd p s hs) hroot]
  unfold strictlyInside
  rw [List.isPrefixOf_iff_prefix]

theorem parseJournalEntry_ne_pathViolation (path : String) (c : JFileContent) :
    parseJournalEntry path c ≠ .error .pathViolation := by
  cases c with
  | noFM => simp [parseJournalEntry]
  | withFM fm body =>
    cases huu : uuidParse fm.id with
    | none => simp [parseJournalEntry, huu]
    | some id =>
      cases hd : fm.date with
      | none => simp [parseJournalEntry, huu, hd]
      | some t => simp [parseJournalEntry, huu, hd]

/-- C1 (amended).  ReadEntry rejects a path with a path-violation error
exactly when its absolute resolution is not strictly inside either root,
and otherwise proceeds to read and decode the file — provided neither
configured root resolves to the filesystem root itself (for a root that
resolves to the bare separator the code rejects even paths strictly inside
it, see the counterexample). -/
theorem ReadEntry_path_containment (projectPath userPath cwd path : String)
    (fs : String → Option JFileContent)
    (hcwd : isAbsChars cwd.data = true)
    (hproj : resolvedSegs cwd projectPath ≠ [])
    (huser : resolvedSegs cwd userPath ≠ []) :
    (ReadEntry projectPath userPath cwd fs path = .error .pathViolation ↔
      ¬ strictlyInside cwd projectPath path ∧ ¬ strictlyInside cwd userPath path) ∧
    (strictlyInside cwd projectPath path ∨ strictlyInside cwd userPath path →
      ReadEntry projectPath userPath cwd fs path =
        match fs (absPath cwd path) with
        | none => .error .ioError
        | some c => parseJournalEntry (absPath cwd path) c) := by
  have hp := strStartsWith_iff_strictlyInside cwd projectPath path hcwd hproj
  have hu := strStartsWith_iff_strictlyInside cwd userPath path hcwd huser
  unfold ReadEntry
  constructor
  · constructor
    · intro h
      by_cases hcond : ¬ strStartsWith (absPath cwd projectPath ++ "/") (absPath cwd path) ∧
          ¬ strStartsWith (absPath cwd userPath ++ "/") (absPath cwd path)
      · exact ⟨fun hin => hcond.1 (hp.mpr hin), fun hin => hcond.2 (hu.mpr hin)⟩
      · rw [if_neg hcond] at h
        cases hfs : fs (absPath cwd path) with
        | none =>
          rw [hfs] at h
          exact absurd h (by simp)
        | some c =>
          rw [hfs] at h
          exact absurd h (parseJournalEntry_ne_pathViolation _ c)
    · intro h
      rw [if_pos ⟨fun hs => h.1 (hp.mp hs), fun hs => h.2 (hu.mp hs)⟩]
  · intro h
    have hcond : ¬ (¬ strStartsWith (absPath cwd projectPath ++ "/") (absPath cwd path) ∧
        ¬ strStartsWith (absPath cwd userPath ++ "/") (absPath cwd path)) := by
      rcases h with h | h
      · exact fun hc => hc.1 (hp.mpr h)
      · exact fun hc => hc.2 (hu.mpr h)
    rw [if_neg hcond]

/-- Witness for C1 at concrete inputs: a traversal outside both roots is
rejected with a path violation. -/
theorem ReadEntry_path_containment_witness :
    ReadEntry "/p" "/u" "/c" (fun _ => none) "/u/../etc/passwd" =
      .error .pathViolation :=
  (ReadEntry_path_containment "/p" "/u" "/c" "/u/../etc/passwd" (fun _ => none)
    (by decide) (by decide) (by decide)).1.mpr (by decide)

/-- Counterexample to C1 as stated: with the project root configured as the
filesystem root, a path strictly inside it is still rejected, because the
code appends a separator to the root before the prefix check. -/
theorem ReadEntry_path_containment_cex :
    strictlyInside "/c" "/" "/etc/x" ∧
    ReadEntry "/" "/u" "/c" (fun _ => some (.withFM
      ⟨"00000000-0000-0000-0000-000000000000", some 0, "user"⟩ "")) "/etc/x" =
      .error .pathViolation := by
  constructor
  · constructor
    · decide
    · decide
  · rfl

/-! ### Date buckets and calendar formatting (time.Parse / time.Format
layouts "2006-01-02" and "15-04-05-000000"). -/

/-- Leap year rule of the proleptic Gregorian calendar. -/
def isLeapYear (y : Int) : Bool :=
  (y.emod 4 == 0 && y.emod 100 != 0) || y.emod 400 == 0

/-- Days in a month, as Go time.Parse validates day-of-month. -/
def daysInMonth (y m : Int) : Int :=
  if m = 2 then (if isLeapYear y then 29 else 28)
  else if m = 4 ∨ m = 6 ∨ m = 9 ∨ m = 11 then 30 else 31

/-- Civil date to day index since 1970-01-01 (standard era-based
conversion; all divisions act on non-negative operands or are floor
divisions, matching the reference algorithm). -/
def daysFromCivil (y m d : Int) : Int :=
  let y2 := if m ≤ 2 then y - 1 else y
  let era := y2.ediv 400
  let yoe := y2 - era * 400
  let mp := (m + 9).emod 12
  let doy := (153 * mp + 2).ediv 5 + d - 1
  let doe := yoe * 365 + yoe.ediv 4 - yoe.ediv 100 + doy
  era * 146097 + doe - 719468

/-- Day index since 1970-01-01 to civil date (year, month, day). -/
def daysToCivil (z : Int) : Int × Int × Int :=
  let z2 := z + 719468
  let era := z2.ediv 146097
  let doe := z2 - era * 146097
  let yoe := (doe - doe.ediv 1460 + doe.ediv 36524 - doe.ediv 146096).ediv 365
  let y := yoe + era * 400
  let doy := doe - (365 * yoe + yoe.ediv 4 - yoe.ediv 100)
  let mp := (5 * doy + 2).ediv 153
  let d := doy - (153 * mp + 2).ediv 5 + 1
  let m := mp + (if mp < 10 then 3 else (-9 : Int))
  (y + (if m ≤ 2 then 1 else 0), m, d)

/-- time.Parse("2006-01-02", name): exactly four, two and two digits
separated by dashes, with month and day-of-month range validation; the
result is the day index of that date (the parsed Time is midnight UTC). -/
def parseDateName (s : String) : Option Int :=
  match s.data with
  | [c1, c2, c3, c4, s1, c5, c6, s2, c7, c8] =>
    if s1 = '-' ∧ s2 = '-' ∧ ([c1, c2, c3, c4, c5, c6, c7, c8].all Char.isDigit) then
      let y : Int := ((c1.toNat - 48) * 1000 + (c2.toNat - 48) * 100 +
        (c3.toNat - 48) * 10 + (c4.toNat - 48) : Nat)
      let mo : Int := ((c5.toNat - 48) * 10 + (c6.toNat - 48) : Nat)
      let da : Int := ((c7.toNat - 48) * 10 + (c8.toNat - 48) : Nat)
      if 1 ≤ mo ∧ mo ≤ 12 ∧ 1 ≤ da ∧ da ≤ daysInMonth y mo then
        some (daysFromCivil y mo da)
      else none
    else none
  | _ => none

/-- Decimal digits of a natural number, most significant first; structural
recursion on a fuel bound so that it reduces in the kernel. -/
def natCharsAux : Nat → Nat → List Char
  | 0, _ => []
  | fuel + 1, n =>
    if n < 10 then [Nat.digitChar n]
    else natCharsAux fuel (n / 10) ++ [Nat.digitChar (n % 10)]

/-- Decimal digits of a natural number, most significant first. -/
def natChars (n : Nat) : List Char := natCharsAux (n + 1) n

/-- Zero-padded decimal rendering of width w. -/
def padZeros (w : Nat) (n : Nat) : List Char :=
  List.replicate (w - (natChars n).length) '0' ++ natChars n

/-- time.Format("2006-01-02"): the date bucket name. -/
def formatDateChars (t : Micros) : List Char :=
  padZeros 4 (daysToCivil (dayOf t)).1.toNat ++ '-' ::
    (padZeros 2 (daysToCivil (dayOf t)).2.1.toNat ++ '-' ::
      padZeros 2 (daysToCivil (dayOf t)).2.2.toNat)

/-- Microseconds since the start of the timestamp's day. -/
def microsOfDay (t : Micros) : Int := t.emod microsPerDay

/-- time.Format("15-04-05-000000"): hour, minute and second of the
timestamp's clock, then the LITERAL text "000000".  In Go layouts a
fractional-second directive must follow a dot or comma directly after the
seconds; after a dash, "000000" is ordinary text, so the rendered name
always ends in "-000000" whatever the timestamp's microseconds are. -/
def clockSecOfDay (t : Micros) : Int := (microsOfDay t).ediv 1000000

def formatClockChars (t : Micros) : List Char :=
  padZeros 2 ((clockSecOfDay t).ediv 3600).toNat ++ '-' ::
    (padZeros 2 (((clockSecOfDay t).ediv 60).emod 60).toNat ++ '-' ::
      (padZeros 2 ((clockSecOfDay t).emod 60).toNat ++ '-' :: ['0', '0', '0', '0', '0', '0']))

/-! ### The journal filesystem model and ListEntries
(internal/storage/journal_md.go). -/

/-- strings.HasSuffix. -/
def strEndsWith (suf s : String) : Bool := suf.data.isSuffixOf s.data

/-- An entry of a date-bucket directory: name, directory flag, readable
content (none models an unreadable file). -/
structure JFile where
  name : String
  isDir : Bool
  content : Option JFileContent

/-- A directory entry under a journal root. -/
structure JDir where
  name : String
  isDir : Bool
  files : List JFile

/-- A journal root directory: none models a non-existent root, which
os.Stat reports as not existing and the scan treats as empty. -/
abbrev JRoot := Option (List JDir)

/-- The per-file loop of listEntriesInRoot: skip directories, skip files
without the .md suffix, skip unreadable files, skip files that fail to
decode, collect the rest. -/
def entriesInDir (dirPath : String) (files : List JFile) : List JournalEntry :=
  files.foldr (fun f acc =>
    if f.isDir then acc
    else if ¬ strEndsWith ".md" f.name then acc
    else match f.content with
      | none => acc
      | some c =>
        match parseJournalEntry (joinPath dirPath f.name) c with
        | .error _ => acc
        | .ok e => e :: acc) []

/-- The date-cutoff test of listEntriesInRoot: with no cutoff every bucket
survives; with a cutoff, a bucket survives only if its name parses as a
date and that date's midnight is not before the cutoff truncated to its
day. -/
def dirSurvives (cutoff : Option Micros) (name : String) : Bool :=
  match cutoff with
  | none => true
  | some c =>
    match parseDateName name with
    | none => false
    | some dd => decide (¬ dd * microsPerDay < dayOf c * microsPerDay)

/-- listEntriesInRoot: empty for a non-existent root; otherwise scan the
date buckets in order, skipping non-directories and pruned buckets. -/
def listEntriesInRoot (rootPath : String) (root : JRoot)
    (cutoff : Option Micros) : List JournalEntry :=
  match root with
  | none => []
  | some dateDirs =>
    dateDirs.foldr (fun d acc =>
      if ¬ d.isDir then acc
      else if ¬ dirSurvives cutoff d.name then acc
      else entriesInDir (joinPath rootPath d.name) d.files ++ acc) []

/-- Root selection of ListEntries: the user root is scanned for "both",
"user" and the empty string. -/
def selectsUser (t : String) : Bool := t == "both" || t == "user" || t == ""

/-- Root selection of ListEntries: the project root is scanned for "both",
"project" and the empty string. -/
def selectsProject (t : String) : Bool := t == "both" || t == "project" || t == ""

/-- The descending-timestamp comparator of the final sort (the code sorts
with less(i, j) = CreatedAt i after CreatedAt j). -/
def byCreatedAtDesc (a b : JournalEntry) : Prop := b.CreatedAt ≤ a.CreatedAt

instance : DecidableRel byCreatedAtDesc := fun a b => by
  unfold byCreatedAtDesc
  infer_instance

/-- ListEntries: select roots by type (user first, then project), compute
the cutoff when days > 0, scan, merge, sort by creation time descending,
truncate to limit when limit > 0. -/
def ListEntries (projectPath userPath : String) (projectRoot userRoot : JRoot)
    (entryType : String) (limit days : Int) (now : Micros) : List JournalEntry :=
  let cutoff : Option Micros :=
    if days > 0 then some (now - days * microsPerDay) else none
  let userEntries :=
    if selectsUser entryType then listEntriesInRoot userPath userRoot cutoff else []
  let projEntries :=
    if selectsProject entryType then listEntriesInRoot projectPath projectRoot cutoff else []
  let entries := userEntries ++ projEntries
  let sorted := entries.insertionSort byCreatedAtDesc
  if limit > 0 ∧ (sorted.length : Int) > limit then sorted.take limit.toNat else sorted

/-- C9.  Root selection is total over all type strings: the user root is
selected exactly for "both", "user" and "", the project root exactly for
"both", "project" and ""; the empty string behaves exactly like "both",
and any other string selects no root and yields an empty result. -/
theorem ListEntries_root_selection :
    (∀ t : String, selectsUser t = true ↔ (t = "both" ∨ t = "user" ∨ t = "")) ∧
    (∀ t : String, selectsProject t = true ↔ (t = "both" ∨ t = "project" ∨ t = "")) ∧
    (∀ (pp up : String) (pr ur : JRoot) (limit days : Int) (now : Micros),
      ListEntries pp up pr ur "" limit days now =
        ListEntries pp up pr ur "both" limit days now) ∧
    (∀ (pp up : String) (pr ur : JRoot) (t : String) (limit days : Int)
        (now : Micros), selectsUser t = false → selectsProject t = false →
      ListEntries pp up pr ur t limit days now = []) := by
  refine ⟨?_, ?_, ?_, ?_⟩
  · intro t
    unfold selectsUser
    constructor
    · intro h
      rcases Bool.or_eq_true_iff.mp h with h1 | h1
      · rcases Bool.or_eq_true_iff.mp h1 with h2 | h2
        · exact Or.inl (beq_iff_eq.mp h2)
        · exact Or.inr (Or.inl (beq_iff_eq.mp h2))
      · exact Or.inr (Or.inr (beq_iff_eq.mp h1))
    · rintro (rfl | rfl | rfl) <;> rfl
  · intro t
    unfold selectsProject
    constructor
    · intro h
      rcases Bool.or_eq_true_iff.mp h with h1 | h1
      · rcases Bool.or_eq_true_iff.mp h1 with h2 | h2
        · exact Or.inl (beq_iff_eq.mp h2)
        · exact Or.inr (Or.inl (beq_iff_eq.mp h2))
      · exact Or.inr (Or.inr (beq_iff_eq.mp h1))
    · rintro (rfl | rfl | rfl) <;> rfl
  · intro pp up pr ur limit days now
    rfl
  · intro pp up pr ur t limit days now hu hp
    unfold ListEntries
    rw [hu, hp]
    simp

/-- Witness for C9: the unrecognized type "remote" yields an empty result
on a root that does contain an entry. -/
theorem ListEntries_root_selection_witness :
    selectsUser "remote" = false ∧ selectsProject "remote" = false ∧
    ListEntries "/p" "/u"
      (some [⟨"2026-01-01", true,
        [⟨"a.md", false, some (.withFM
          ⟨"00000000-0000-0000-0000-000000000000", some 0, "project"⟩ "")⟩]⟩])
      none "remote" 0 0 0 = [] :=
  ⟨rfl, rfl,
    ListEntries_root_selection.2.2.2 "/p" "/u" _ none "remote" 0 0 0 rfl rfl⟩

/-! ### C4: merge, order and truncation of ListEntries("both", limit, 0). -/

/-- Strictly-descending creation time, the order the spec asserts. -/
def ltByCreatedAt (a b : JournalEntry) : Prop := b.CreatedAt < a.CreatedAt

instance : DecidableRel ltByCreatedAt := fun a b => by
  unfold ltByCreatedAt
  infer_instance

instance : IsTotal JournalEntry byCreatedAtDesc :=
  ⟨fun a b => le_total b.CreatedAt a.CreatedAt⟩

instance : IsTrans JournalEntry byCreatedAtDesc :=
  ⟨fun _ _ _ hab hbc => le_trans hbc hab⟩

instance : IsAntisymm JournalEntry ltByCreatedAt :=
  ⟨fun _ b h1 h2 => absurd (lt_trans h1 h2) (lt_irrefl b.CreatedAt)⟩

/-- C4 (amended).  ListEntries("both", limit, 0) returns the union of the
decodable entries of the user root and the project root in descending
timestamp order — strictly descending (and uniquely determined) whenever
the decodable entries have pairwise-distinct timestamps, which the
arrangement l witnesses — truncated to the limit most recent when
limit > 0; a non-existent root contributes an empty result. -/
theorem ListEntries_both_merge (pp up : String) (pr ur : JRoot) (limit : Int)
    (now : Micros) (l : List JournalEntry)
    (hperm : l.Perm (listEntriesInRoot up ur none ++ listEntriesInRoot pp pr none))
    (hsort : l.Pairwise ltByCreatedAt) :
    (ListEntries pp up pr ur "both" limit 0 now =
      if limit > 0 then l.take limit.toNat else l) ∧
    (∀ (p : String) (c : Option Micros), listEntriesInRoot p (none : JRoot) c = []) := by
  constructor
  · have hentries : ListEntries pp up pr ur "both" limit 0 now =
        (if limit > 0 ∧
            ((List.insertionSort byCreatedAtDesc
              (listEntriesInRoot up ur none ++ listEntriesInRoot pp pr none)).length : Int) > limit
          then (List.insertionSort byCreatedAtDesc
            (listEntriesInRoot up ur none ++ listEntriesInRoot pp pr none)).take limit.toNat
          else List.insertionSort byCreatedAtDesc
            (listEntriesInRoot up ur none ++ listEntriesInRoot pp pr none)) := rfl
    set E := listEntriesInRoot up ur none ++ listEntriesInRoot pp pr none with hE
    have hp1 : (List.insertionSort byCreatedAtDesc E).Perm E :=
      List.perm_insertionSort byCreatedAtDesc E
    have hp2 : l.Perm (List.insertionSort byCreatedAtDesc E) := hperm.trans hp1.symm
    have hsorted : (List.insertionSort byCreatedAtDesc E).Sorted byCreatedAtDesc :=
      List.sorted_insertionSort byCreatedAtDesc E
    have hne_l : l.Pairwise (fun a b => a.CreatedAt ≠ b.CreatedAt) :=
      hsort.imp (fun h => ne_of_gt h)
    have hne_s : (List.insertionSort byCreatedAtDesc E).Pairwise
        (fun a b => a.CreatedAt ≠ b.CreatedAt) :=
      (List.Perm.pairwise_iff (fun h => Ne.symm h) hp2).mp hne_l
    have hstrict_s : (List.insertionSort byCreatedAtDesc E).Pairwise ltByCreatedAt := by
      have := hsorted.and hne_s
      exact this.imp (fun h => lt_of_le_of_ne h.1 (fun he => h.2 he.symm))
    have heq : l = List.insertionSort byCreatedAtDesc E :=
      List.eq_of_perm_of_sorted hp2 hsort hstrict_s
    rw [hentries, ← heq]
    by_cases h1 : limit > 0
    · by_cases h2 : (l.length : Int) > limit
      · rw [if_pos ⟨h1, h2⟩, if_pos h1]
      · rw [if_neg (fun hc => h2 hc.2), if_pos h1]
        have hle : l.length ≤ limit.toNat := by omega
        rw [List.take_of_length_le hle]
    · rw [if_neg (fun hc => h1 hc.1), if_neg h1]
  · intro p c
    rfl

/-- A second concrete UUID for witnesses. -/
def uuidOne : UUID := ⟨"00000000-0000-0000-0000-000000000001", by decide⟩

/-- Witness for C4: one entry in each root, distinct timestamps; the merge
lists the newer (user) entry before the older (project) one. -/
theorem ListEntries_both_merge_witness :
    ListEntries "/p" "/u"
      (some [⟨"1970-01-01", true, [⟨"b.md", false, some (.withFM
        ⟨"00000000-0000-0000-0000-000000000001", some 0, "project"⟩ "")⟩]⟩])
      (some [⟨"1970-01-01", true, [⟨"a.md", false, some (.withFM
        ⟨"00000000-0000-0000-0000-000000000000", some 1, "user"⟩ "")⟩]⟩])
      "both" 0 0 0 =
      [⟨uuidZero, [], 1, "/u/1970-01-01/a.md", "user"⟩,
       ⟨uuidOne, [], 0, "/p/1970-01-01/b.md", "project"⟩] := by
  have h := (ListEntries_both_merge "/p" "/u"
    (some [⟨"1970-01-01", true, [⟨"b.md", false, some (.withFM
      ⟨"00000000-0000-0000-0000-000000000001", some 0, "project"⟩ "")⟩]⟩])
    (some [⟨"1970-01-01", true, [⟨"a.md", false, some (.withFM
      ⟨"00000000-0000-0000-0000-000000000000", some 1, "user"⟩ "")⟩]⟩])
    0 0
    [⟨uuidZero, [], 1, "/u/1970-01-01/a.md", "user"⟩,
     ⟨uuidOne, [], 0, "/p/1970-01-01/b.md", "project"⟩]
    (by decide) (by decide)).1
  simpa using h

/-- Counterexample to C4 as stated: two decodable entries with the same
timestamp are both returned, so the result cannot be in strictly
descending timestamp order. -/
theorem ListEntries_both_merge_cex :
    (ListEntries "/p" "/u" (some [])
      (some [⟨"1970-01-01", true,
        [⟨"a.md", false, some (.withFM
          ⟨"00000000-0000-0000-0000-000000000000", some 5, "user"⟩ "")⟩,
         ⟨"b.md", false, some (.withFM
          ⟨"00000000-0000-0000-0000-000000000001", some 5, "user"⟩ "")⟩]⟩])
      "both" 0 0 0).length = 2 ∧
    ¬ (ListEntries "/p" "/u" (some [])
      (some [⟨"1970-01-01", true,
        [⟨"a.md", false, some (.withFM
          ⟨"00000000-0000-0000-0000-000000000000", some 5, "user"⟩ "")⟩,
         ⟨"b.md", false, some (.withFM
          ⟨"00000000-0000-0000-0000-000000000001", some 5, "user"⟩ "")⟩]⟩])
      "both" 0 0 0).Pairwise ltByCreatedAt := by
  constructor
  · decide
  · decide

/-! ### C7: pruning of date buckets by directory name. -/

/-- The spec-side bucket survival test: the name parses as a date not
strictly before the cutoff day. -/
def keepBucket (cutDay : Int) (name : String) : Bool :=
  match parseDateName name with
  | some dd => decide (cutDay ≤ dd)
  | none => false

/-- Drop pruned buckets from a root. -/
def pruneRoot (cutDay : Int) : JRoot → JRoot :=
  Option.map (List.filter (fun d => keepBucket cutDay d.name))

theorem dirSurvives_eq_keepBucket (c : Micros) (name : String) :
    dirSurvives (some c) name = keepBucket (dayOf c) name := by
  unfold dirSurvives keepBucket
  cases parseDateName name with
  | none => rfl
  | some dd =>
    have : (dd * microsPerDay < dayOf c * microsPerDay) ↔ (dd < dayOf c) :=
      mul_lt_mul_right (by norm_num [microsPerDay])
    simp [this, not_lt]

theorem listEntriesInRoot_filter (rootPath : String) (dirs : List JDir)
    (c : Micros) :
    listEntriesInRoot rootPath (some dirs) (some c) =
      listEntriesInRoot rootPath
        (some (dirs.filter (fun d => keepBucket (dayOf c) d.name))) none := by
  induction dirs with
  | nil => rfl
  | cons d rest ih =>
    have hL : listEntriesInRoot rootPath (some (d :: rest)) (some c) =
        (if ¬ d.isDir then listEntriesInRoot rootPath (some rest) (some c)
         else if ¬ dirSurvives (some c) d.name then
           listEntriesInRoot rootPath (some rest) (some c)
         else entriesInDir (joinPath rootPath d.name) d.files ++
           listEntriesInRoot rootPath (some rest) (some c)) := rfl
    have hstepR : ∀ f : List JDir,
        listEntriesInRoot rootPath (some (d :: f)) none =
        (if ¬ d.isDir then listEntriesInRoot rootPath (some f) none
         else if ¬ dirSurvives none d.name then
           listEntriesInRoot rootPath (some f) none
         else entriesInDir (joinPath rootPath d.name) d.files ++
           listEntriesInRoot rootPath (some f) none) := fun _ => rfl
    rw [hL, List.filter_cons]
    by_cases hd : d.isDir
    · by_cases hk : keepBucket (dayOf c) d.name
      · rw [if_pos hk, hstepR, if_neg (not_not_intro hd), if_neg (not_not_intro hd),
          if_neg (not_not_intro (by rw [dirSurvives_eq_keepBucket]; exact hk)),
          if_neg (not_not_intro (show dirSurvives none d.name = true from rfl)), ih]
      · rw [if_neg hk, if_neg (not_not_intro hd),
          if_pos (by rw [dirSurvives_eq_keepBucket]; exact hk), ih]
    · by_cases hk : keepBucket (dayOf c) d.name
      · rw [if_pos hk, hstepR, if_pos hd, if_pos hd, ih]
      · rw [if_neg hk, if_pos hd, ih]

theorem listEntriesInRoot_prune (rootPath : String) (r : JRoot) (c : Micros) :
    listEntriesInRoot rootPath r (some c) =
      listEntriesInRoot rootPath (pruneRoot (dayOf c) r) none := by
  cases r with
  | none => rfl
  | some dirs => exact listEntriesInRoot_filter rootPath dirs c

/-- C7.  With days > 0, ListEntries prunes by directory name alone: a date
bucket is skipped exactly when its name parses to a date strictly before
the cutoff day of now − days (buckets whose names do not parse as dates are
also skipped, which the filter makes explicit), and the scan of the
surviving buckets is exactly the unpruned scan of the filtered tree, so no
file inside a pruned bucket influences the result. -/
theorem ListEntries_prunes_by_bucket (pp up : String) (pr ur : JRoot)
    (t : String) (limit days : Int) (now : Micros) (hdays : 0 < days) :
    (∀ (rootPath : String) (dirs : List JDir),
      (∀ d ∈ dirs, (parseDateName d.name).isSome) →
      listEntriesInRoot rootPath (some dirs) (some (now - days * microsPerDay)) =
        listEntriesInRoot rootPath
          (some (dirs.filter (fun d =>
            keepBucket (dayOf (now - days * microsPerDay)) d.name))) none) ∧
    ListEntries pp up pr ur t limit days now =
      ListEntries pp up (pruneRoot (dayOf (now - days * microsPerDay)) pr)
        (pruneRoot (dayOf (now - days * microsPerDay)) ur) t limit 0 now := by
  constructor
  · intro rootPath dirs _
    exact listEntriesInRoot_filter rootPath dirs (now - days * microsPerDay)
  · simp only [ListEntries]
    rw [if_pos hdays, if_neg (lt_irrefl (0 : Int))]
    rw [listEntriesInRoot_prune up ur (now - days * microsPerDay),
      listEntriesInRoot_prune pp pr (now - days * microsPerDay)]

/-- Witness for C7: with now at the start of day 2 and days = 1, the day-0
bucket is pruned (its valid entry is not returned) and the day-1 bucket is
scanned. -/
theorem ListEntries_prunes_by_bucket_witness :
    listEntriesInRoot "/u"
      (some [⟨"1970-01-01", true, [⟨"a.md", false, some (.withFM
        ⟨"00000000-0000-0000-0000-000000000000", some 0, "user"⟩ "")⟩]⟩,
       ⟨"1970-01-02", true, [⟨"b.md", false, some (.withFM
        ⟨"00000000-0000-0000-0000-000000000001", some microsPerDay, "user"⟩ "")⟩]⟩])
      (some (2 * microsPerDay - 1 * microsPerDay)) =
      [⟨uuidOne, [], microsPerDay, "/u/1970-01-02/b.md", "user"⟩] := by
  rw [(ListEntries_prunes_by_bucket "/p" "/u" none none "both" 0 1
    (2 * microsPerDay) (by omega)).1 "/u" _ (by decide)]
  decide

/-! ### C5: the deterministic path layout. -/

theorem cleanStack_append (l1 l2 : List (List Char)) (stk : List (List Char))
    (r : Bool) :
    cleanStack (l1 ++ l2) stk r = cleanStack l2 (cleanStack l1 stk r) r := by
  induction l1 generalizing stk with
  | nil => rfl
  | cons s rest ih =>
    by_cases h1 : s = [] ∨ s = ['.']
    · rw [List.cons_append, cleanStack_skip h1, cleanStack_skip h1, ih]
    · by_cases h2 : s = ['.', '.']
      · cases stk with
        | cons top stk2 =>
          by_cases h3 : top = ['.', '.']
          · rw [List.cons_append, cleanStack_dd_push h1 h2 h3,
              cleanStack_dd_push h1 h2 h3, ih]
          · rw [List.cons_append, cleanStack_dd_pop h1 h2 h3,
              cleanStack_dd_pop h1 h2 h3, ih]
        | nil =>
          rw [List.cons_append, cleanStack_dd_empty h1 h2, cleanStack_dd_empty h1 h2]
          by_cases hr : r = true
          · rw [if_pos hr, if_pos hr, ih]
          · rw [if_neg hr, if_neg hr, ih]
      · rw [List.cons_append, cleanStack_push h1 h2, cleanStack_push h1 h2, ih]

theorem joinSegs_append_single (a : List (List Char)) (b : List Char)
    (ha : a ≠ []) : joinSegs (a ++ [b]) = joinSegs a ++ '/' :: b := by
  induction a with
  | nil => exact absurd rfl ha
  | cons s rest ih =>
    cases rest with
    | nil => rfl
    | cons s2 rest2 =>
      show s ++ '/' :: joinSegs ((s2 :: rest2) ++ [b]) =
        (s ++ '/' :: joinSegs (s2 :: rest2)) ++ '/' :: b
      rw [ih (by simp)]
      simp [List.append_assoc]

theorem segsOf_append_seg (a b : List Char) (hb : '/' ∉ b) :
    segsOf (a ++ '/' :: b) = segsOf a ++ [b] := by
  unfold segsOf
  rw [splitOnChar_append_cons, splitOnChar_of_not_mem hb]

theorem cleanSegs_append_seg (sa : List (List Char)) (b : List Char) (r : Bool)
    (hb0 : ¬(b = [] ∨ b = ['.'])) (hb4 : b ≠ ['.', '.']) :
    cleanSegs (sa ++ [b]) r = cleanSegs sa r ++ [b] := by
  unfold cleanSegs
  rw [cleanStack_append, cleanStack_push hb0 hb4]
  show (cleanStack [] (b :: cleanStack sa [] r) r).reverse = _
  simp [cleanStack]

theorem isAbsChars_append_seg (a : List Char) (tail : List Char) (ha : a ≠ []) :
    isAbsChars (a ++ tail) = isAbsChars a := by
  cases a with
  | nil => exact absurd rfl ha
  | cons c cs => rfl

/-- The core of the Join-flattening argument: appending a plain segment to
a cleaned non-degenerate path just extends it. -/
theorem cleanChars_append_seg (a b : List Char)
    (hca : cleanChars a = a) (hne : a ≠ []) (hroot : a ≠ ['/']) (hdot : a ≠ ['.'])
    (hb0 : ¬(b = [] ∨ b = ['.'])) (hb2 : '/' ∉ b) (hb4 : b ≠ ['.', '.']) :
    cleanChars (a ++ '/' :: b) = a ++ '/' :: b := by
  have hsegs : segsOf (a ++ '/' :: b) = segsOf a ++ [b] := segsOf_append_seg a b hb2
  have habs : isAbsChars (a ++ '/' :: b) = isAbsChars a :=
    isAbsChars_append_seg a ('/' :: b) hne
  unfold cleanChars at hca ⊢
  by_cases hr : isAbsChars a = true
  · rw [if_pos hr] at hca
    rw [if_pos (habs ▸ hr), hsegs, cleanSegs_append_seg _ _ _ hb0 hb4]
    have hsa : cleanSegs (segsOf a) true ≠ [] := by
      intro he
      rw [he] at hca
      exact hroot (hca.symm)
    rw [joinSegs_append_single _ _ hsa]
    show ('/' :: joinSegs (cleanSegs (segsOf a) true)) ++ '/' :: b = _
    rw [hca]
  · have hrf : isAbsChars a = false := by
      cases h : isAbsChars a
      · rfl
      · exact absurd h hr
    rw [if_neg hr] at hca
    rw [if_neg (by rw [habs, hrf]; exact Bool.false_ne_true), hsegs,
      cleanSegs_append_seg _ _ _ hb0 hb4]
    have hsa : cleanSegs (segsOf a) false ≠ [] := by
      intro he
      rw [if_pos he] at hca
      exact hdot hca.symm
    rw [if_neg hsa] at hca
    rw [if_neg (by simp [hsa]), joinSegs_append_single _ _ hsa, hca]

theorem str_ne_of_data {a : String} {l : List Char} (h : a.data ≠ l) :
    a ≠ (⟨l⟩ : String) := fun he => h (by rw [he])

theorem data_ne_of_str {a : String} {l : List Char} (h : a ≠ (⟨l⟩ : String)) :
    a.data ≠ l := fun he => h (by cases a; simp at he; rw [he])

/-- filepath.Join of a cleaned non-degenerate directory and a plain name
is plain concatenation with a separator, and the result is again cleaned
and non-degenerate. -/
theorem joinPath_plain (a b : String)
    (hclean : cleanPath a = a) (hne : a ≠ "") (hroot : a ≠ "/") (hdot : a ≠ ".")
    (hb1 : b.data ≠ []) (hb3 : b.data ≠ ['.']) (hb5 : b.data ≠ ['.', '.'])
    (hb2 : '/' ∉ b.data) :
    joinPath a b = a ++ "/" ++ b ∧
    cleanPath (a ++ "/" ++ b) = a ++ "/" ++ b ∧
    (a ++ "/" ++ b) ≠ "" ∧ (a ++ "/" ++ b) ≠ "/" ∧ (a ++ "/" ++ b) ≠ "." := by
  have hdata : (a ++ "/" ++ b).data = a.data ++ '/' :: b.data := by
    rw [String.data_append, String.data_append]
    simp
  have hane : a.data ≠ [] := data_ne_of_str hne
  have hclean2 : cleanChars (a.data ++ '/' :: b.data) = a.data ++ '/' :: b.data :=
    cleanChars_append_seg a.data b.data (congrArg String.data hclean) hane
      (data_ne_of_str hroot) (data_ne_of_str hdot)
      (by rintro (h | h); exacts [hb1 h, hb3 h]) hb2 hb5
  have hcp : cleanPath (a ++ "/" ++ b) = a ++ "/" ++ b := by
    unfold cleanPath
    rw [hdata, hclean2]
    cases hab : (a ++ "/" ++ b) with
    | mk l =>
      rw [hab] at hdata
      have hl : l = a.data ++ '/' :: b.data := by simpa using hdata
      rw [hl]
  have hblen : 0 < b.data.length := List.length_pos.mpr hb1
  have halen : 0 < a.data.length := List.length_pos.mpr hane
  have hlen : 2 < (a ++ "/" ++ b).data.length := by
    rw [hdata]
    simp only [List.length_append, List.length_cons]
    omega
  refine ⟨?_, hcp, ?_, ?_, ?_⟩
  · unfold joinPath
    rw [if_neg hne, if_neg (str_ne_of_data hb1 : b ≠ ("" : String))]
    exact hcp
  · intro he
    rw [he] at hlen
    simp at hlen
  · intro he
    rw [he] at hlen
    simp at hlen
  · intro he
    rw [he] at hlen
    simp at hlen

theorem digitChar_isDigit (k : Nat) (h : k < 10) :
    (Nat.digitChar k).isDigit = true := by
  have h10 : ∀ k : Fin 10, (Nat.digitChar k.val).isDigit = true := by decide
  exact h10 ⟨k, h⟩

theorem natCharsAux_digits :
    ∀ (fuel n : Nat), ∀ c ∈ natCharsAux fuel n, c.isDigit = true := by
  intro fuel
  induction fuel with
  | zero =>
    intro n c hc
    exact absurd hc (List.not_mem_nil c)
  | succ f ih =>
    intro n c hc
    simp only [natCharsAux] at hc
    split at hc
    · rename_i h
      simp at hc
      subst hc
      exact digitChar_isDigit _ h
    · rcases List.mem_append.mp hc with h1 | h1
      · exact ih (n / 10) c h1
      · simp at h1
        subst h1
        exact digitChar_isDigit _ (Nat.mod_lt _ (by omega))

theorem natChars_digits : ∀ (n : Nat), ∀ c ∈ natChars n, c.isDigit = true :=
  fun n => natCharsAux_digits (n + 1) n

theorem natChars_ne_nil (n : Nat) : natChars n ≠ [] := by
  rw [natChars]
  show natCharsAux (n + 1) n ≠ []
  simp only [natCharsAux]
  split
  · simp
  · simp

theorem padZeros_digits (w n : Nat) : ∀ c ∈ padZeros w n, c.isDigit = true := by
  intro c hc
  rcases List.mem_append.mp hc with h1 | h1
  · rw [List.eq_of_mem_replicate h1]
    decide
  · exact natChars_digits n c h1

theorem padZeros_head (w n : Nat) :
    ∃ c0 rest, padZeros w n = c0 :: rest ∧ c0.isDigit = true := by
  unfold padZeros
  cases hw : w - (natChars n).length with
  | zero =>
    cases hn : natChars n with
    | nil => exact absurd hn (natChars_ne_nil n)
    | cons c0 rest =>
      exact ⟨c0, rest, by simp [hn],
        natChars_digits n c0 (hn ▸ List.mem_cons_self _ _)⟩
  | succ k =>
    exact ⟨'0', List.replicate k '0' ++ natChars n,
      by simp [List.replicate_succ], by decide⟩

theorem formatDateChars_mem (t : Micros) :
    ∀ c ∈ formatDateChars t, c.isDigit = true ∨ c = '-' := by
  intro c hc
  unfold formatDateChars at hc
  rcases List.mem_append.mp hc with h1 | h1
  · exact Or.inl (padZeros_digits _ _ c h1)
  · rcases List.mem_cons.mp h1 with h2 | h2
    · exact Or.inr h2
    · rcases List.mem_append.mp h2 with h3 | h3
      · exact Or.inl (padZeros_digits _ _ c h3)
      · rcases List.mem_cons.mp h3 with h4 | h4
        · exact Or.inr h4
        · exact Or.inl (padZeros_digits _ _ c h4)

theorem formatClockChars_mem (t : Micros) :
    ∀ c ∈ formatClockChars t, c.isDigit = true ∨ c = '-' := by
  intro c hc
  unfold formatClockChars at hc
  rcases List.mem_append.mp hc with h1 | h1
  · exact Or.inl (padZeros_digits _ _ c h1)
  · rcases List.mem_cons.mp h1 with h2 | h2
    · exact Or.inr h2
    · rcases List.mem_append.mp h2 with h3 | h3
      · exact Or.inl (padZeros_digits _ _ c h3)
      · rcases List.mem_cons.mp h3 with h4 | h4
        · exact Or.inr h4
        · rcases List.mem_append.mp h4 with h5 | h5
          · exact Or.inl (padZeros_digits _ _ c h5)
          · rcases List.mem_cons.mp h5 with h6 | h6
            · exact Or.inr h6
            · left
              simp at h6
              rw [h6]
              decide

theorem formatDateChars_plain (t : Micros) :
    formatDateChars t ≠ [] ∧ '/' ∉ formatDateChars t ∧
    formatDateChars t ≠ ['.'] ∧ formatDateChars t ≠ ['.', '.'] := by
  have hdot : '.' ∉ formatDateChars t := by
    intro h
    rcases formatDateChars_mem t '.' h with h1 | h1
    · exact absurd h1 (by decide)
    · exact absurd h1 (by decide)
  refine ⟨?_, ?_, ?_, ?_⟩
  · obtain ⟨c0, rest, heq, -⟩ := padZeros_head 4 (daysToCivil (dayOf t)).1.toNat
    unfold formatDateChars
    rw [heq]
    simp
  · intro h
    rcases formatDateChars_mem t '/' h with h1 | h1
    · exact absurd h1 (by decide)
    · exact absurd h1 (by decide)
  · intro he
    exact hdot (he ▸ List.mem_cons_self '.' [])
  · intro he
    exact hdot (he ▸ List.mem_cons_self '.' ['.'])

theorem mem_splitOnChar_of_mem (c : Char) (l : List Char) :
    ∀ x ∈ l, x = c ∨ ∃ p ∈ splitOnChar c l, x ∈ p := by
  induction l with
  | nil =>
    intro x hx
    exact absurd hx (List.not_mem_nil x)
  | cons y ys ih =>
    intro x hx
    by_cases hy : y = c
    · subst hy
      rcases List.mem_cons.mp hx with h1 | h1
      · exact Or.inl h1
      · rcases ih x h1 with h2 | ⟨p, hp, hxp⟩
        · exact Or.inl h2
        · exact Or.inr ⟨p, by
            rw [splitOnChar_cons_self]
            exact List.mem_cons_of_mem _ hp, hxp⟩
    · cases hsp : splitOnChar c ys with
      | nil => exact absurd hsp (splitOnChar_ne_nil c ys)
      | cons l0 ls =>
        have hstep : splitOnChar c (y :: ys) = (y :: l0) :: ls := by
          show (if y = c then [] :: splitOnChar c ys
            else match splitOnChar c ys with
              | [] => [[y]]
              | l :: ls => (y :: l) :: ls) = _
          rw [if_neg hy, hsp]
        rcases List.mem_cons.mp hx with h1 | h1
        · subst h1
          exact Or.inr ⟨x :: l0, by
            rw [hstep]
            exact List.mem_cons_self _ _, List.mem_cons_self _ _⟩
        · rcases ih x h1 with h2 | ⟨p, hp, hxp⟩
          · exact Or.inl h2
          · rw [hsp] at hp
            rcases List.mem_cons.mp hp with h3 | h3
            · subst h3
              exact Or.inr ⟨y :: p, by
                rw [hstep]
                exact List.mem_cons_self _ _, List.mem_cons_of_mem _ hxp⟩
            · exact Or.inr ⟨p, by
                rw [hstep]
                exact List.mem_cons_of_mem _ h3, hxp⟩

/-- Destructuring a canonical UUID string: every character is a lower-case
hex digit or a dash. -/
theorem uuid_chars (u : UUID) :
    ∀ x ∈ u.val.data, isLowerHexDigit x = true ∨ x = '-' := by
  intro x hx
  have hc := u.prop
  unfold isCanonUUID at hc
  rcases mem_splitOnChar_of_mem '-' u.val.data x hx with h | ⟨p, hp, hxp⟩
  · exact Or.inr h
  · left
    rcases hsp : splitOnChar '-' u.val.data with
      _ | ⟨a, _ | ⟨b, _ | ⟨c2, _ | ⟨d, _ | ⟨e, _ | ⟨f, rest⟩⟩⟩⟩⟩⟩ <;>
      rw [hsp] at hc hp
    · exact absurd hc (by simp)
    · exact absurd hc (by simp)
    · exact absurd hc (by simp)
    · exact absurd hc (by simp)
    · exact absurd hc (by simp)
    · have hall : (a ++ b ++ c2 ++ d ++ e).all isLowerHexDigit = true := by
        simp only [Bool.and_eq_true] at hc
        exact hc.2
      have hmem : x ∈ a ++ b ++ c2 ++ d ++ e := by
        simp only [List.mem_cons, List.mem_singleton] at hp
        rcases hp with rfl | rfl | rfl | rfl | rfl | h0
        · simp [hxp]
        · simp [hxp]
        · simp [hxp]
        · simp [hxp]
        · simp [hxp]
        · exact absurd h0 (List.not_mem_nil p)
      exact List.all_eq_true.mp hall x hmem
    · exact absurd hc (by simp)

theorem take8_chars (u : UUID) :
    ∀ x ∈ (uuidString u).data.take 8, isLowerHexDigit x = true ∨ x = '-' :=
  fun x hx => uuid_chars u x (List.take_subset 8 _ hx)

/-- The file name WriteEntry and CreatePost build: clock layout, dash,
first eight characters of the identifier, .md extension. -/
def entryFileNameChars (t : Micros) (id : UUID) : List Char :=
  formatClockChars t ++ '-' :: ((uuidString id).data.take 8 ++ ['.', 'm', 'd'])

theorem entryFileNameChars_no_slash (t : Micros) (id : UUID) :
    '/' ∉ entryFileNameChars t id := by
  intro h
  unfold entryFileNameChars at h
  rcases List.mem_append.mp h with h1 | h1
  · rcases formatClockChars_mem t '/' h1 with h2 | h2
    · exact absurd h2 (by decide)
    · exact absurd h2 (by decide)
  · rcases List.mem_cons.mp h1 with h2 | h2
    · exact absurd h2 (by decide)
    · rcases List.mem_append.mp h2 with h3 | h3
      · rcases take8_chars id '/' h3 with h4 | h4
        · exact absurd h4 (by decide)
        · exact absurd h4 (by decide)
      · simp at h3

theorem padZeros_append_head (w n : Nat) (l2 : List Char) :
    ∃ c0 tail, padZeros w n ++ l2 = c0 :: tail ∧ c0.isDigit = true := by
  obtain ⟨c0, rest, heq, hdig⟩ := padZeros_head w n
  exact ⟨c0, rest ++ l2, by rw [heq]; rfl, hdig⟩

theorem entryFileNameChars_plain (t : Micros) (id : UUID) :
    entryFileNameChars t id ≠ [] ∧ entryFileNameChars t id ≠ ['.'] ∧
    entryFileNameChars t id ≠ ['.', '.'] := by
  have hsplit : entryFileNameChars t id =
      padZeros 2 ((clockSecOfDay t).ediv 3600).toNat ++
        (('-' :: (padZeros 2 (((clockSecOfDay t).ediv 60).emod 60).toNat ++ '-' ::
          (padZeros 2 ((clockSecOfDay t).emod 60).toNat ++
            '-' :: ['0', '0', '0', '0', '0', '0']))) ++
          '-' :: ((uuidString id).data.take 8 ++ ['.', 'm', 'd'])) := by
    unfold entryFileNameChars formatClockChars
    simp [List.append_assoc]
  obtain ⟨c0, tail, heq, hdig⟩ := padZeros_append_head 2
    ((clockSecOfDay t).ediv 3600).toNat
    (('-' :: (padZeros 2 (((clockSecOfDay t).ediv 60).emod 60).toNat ++ '-' ::
      (padZeros 2 ((clockSecOfDay t).emod 60).toNat ++
        '-' :: ['0', '0', '0', '0', '0', '0']))) ++
      '-' :: ((uuidString id).data.take 8 ++ ['.', 'm', 'd']))
  have htail : entryFileNameChars t id = c0 :: tail := by rw [hsplit, heq]
  have hc0 : c0 ≠ '.' := by
    intro he
    rw [he] at hdig
    exact absurd hdig (by decide)
  refine ⟨?_, ?_, ?_⟩
  · rw [htail]
    simp
  · rw [htail]
    intro he
    injection he with h1 h2
    exact hc0 h1
  · rw [htail]
    intro he
    injection he with h1 h2
    exact hc0 h1

/-- The path WriteEntry computes (internal/storage/journal_md.go): root by
entry type, filepath.Join with the date bucket, filepath.Join with the
time-and-short-id file name. -/
def WriteEntryPath (projectPath userPath : String) (e : JournalEntry) : String :=
  joinPath (joinPath (if e.Typ = "project" then projectPath else userPath)
    ⟨formatDateChars e.CreatedAt⟩) ⟨entryFileNameChars e.CreatedAt e.ID⟩

/-- The path CreatePost computes (internal/storage/social_md.go): the same
scheme under the posts/ subtree of the data root. -/
def CreatePostPath (dataDir : String) (t : Micros) (id : UUID) : String :=
  joinPath (joinPath (joinPath dataDir "posts") ⟨formatDateChars t⟩)
    ⟨entryFileNameChars t id⟩

/-- C5 (amended).  For journal WriteEntry and social CreatePost alike, the
file path is root, then a YYYY-MM-DD date directory, then a file named by
the clock as HH-MM-SS followed by the literal text "000000" (the Go layout
"15-04-05-000000" renders fractional seconds only after a dot or comma, so
the last six characters are constant zeros, not the timestamp's
microseconds), a dash, the first 8 hex characters of the identifier, and
".md"; social posts use this scheme under posts/.  The roots are assumed
cleaned and non-degenerate so that filepath.Join is plain concatenation. -/
theorem recordPath_layout (projectPath userPath dataDir : String)
    (e : JournalEntry) (t : Micros) (id : UUID)
    (hp1 : cleanPath projectPath = projectPath) (hp2 : projectPath ≠ "")
    (hp3 : projectPath ≠ "/") (hp4 : projectPath ≠ ".")
    (hu1 : cleanPath userPath = userPath) (hu2 : userPath ≠ "")
    (hu3 : userPath ≠ "/") (hu4 : userPath ≠ ".")
    (hd1 : cleanPath dataDir = dataDir) (hd2 : dataDir ≠ "")
    (hd3 : dataDir ≠ "/") (hd4 : dataDir ≠ ".") :
    WriteEntryPath projectPath userPath e =
      (if e.Typ = "project" then projectPath else userPath) ++ "/" ++
        (⟨formatDateChars e.CreatedAt⟩ : String) ++ "/" ++
        (⟨entryFileNameChars e.CreatedAt e.ID⟩ : String) ∧
    CreatePostPath dataDir t id =
      dataDir ++ "/" ++ "posts" ++ "/" ++ (⟨formatDateChars t⟩ : String) ++ "/" ++
        (⟨entryFileNameChars t id⟩ : String) := by
  have hdate : ∀ u : Micros, ((⟨formatDateChars u⟩ : String).data ≠ [] ∧
      (⟨formatDateChars u⟩ : String).data ≠ ['.'] ∧
      (⟨formatDateChars u⟩ : String).data ≠ ['.', '.'] ∧
      '/' ∉ (⟨formatDateChars u⟩ : String).data) := by
    intro u
    obtain ⟨h1, h2, h3, h4⟩ := formatDateChars_plain u
    exact ⟨h1, h3, h4, h2⟩
  have hfile : ∀ (u : Micros) (i : UUID),
      ((⟨entryFileNameChars u i⟩ : String).data ≠ [] ∧
      (⟨entryFileNameChars u i⟩ : String).data ≠ ['.'] ∧
      (⟨entryFileNameChars u i⟩ : String).data ≠ ['.', '.'] ∧
      '/' ∉ (⟨entryFileNameChars u i⟩ : String).data) := by
    intro u i
    obtain ⟨h1, h2, h3⟩ := entryFileNameChars_plain u i
    exact ⟨h1, h2, h3, entryFileNameChars_no_slash u i⟩
  constructor
  · have hroot : cleanPath (if e.Typ = "project" then projectPath else userPath) =
        (if e.Typ = "project" then projectPath else userPath) ∧
        (if e.Typ = "project" then projectPath else userPath) ≠ "" ∧
        (if e.Typ = "project" then projectPath else userPath) ≠ "/" ∧
        (if e.Typ = "project" then projectPath else userPath) ≠ "." := by
      by_cases hty : e.Typ = "project"
      · rw [if_pos hty]
        exact ⟨hp1, hp2, hp3, hp4⟩
      · rw [if_neg hty]
        exact ⟨hu1, hu2, hu3, hu4⟩
    obtain ⟨hr1, hr2, hr3, hr4⟩ := hroot
    obtain ⟨hd1a, hd3a, hd4a, hd2a⟩ := hdate e.CreatedAt
    obtain ⟨j1, j2, j3, j4, j5⟩ := joinPath_plain _ _ hr1 hr2 hr3 hr4 hd1a hd3a hd4a hd2a
    obtain ⟨hf1, hf3, hf4, hf2⟩ := hfile e.CreatedAt e.ID
    obtain ⟨k1, k2, k3, k4, k5⟩ := joinPath_plain _ _ j2 j3 j4 j5 hf1 hf3 hf4 hf2
    unfold WriteEntryPath
    rw [j1, k1]
  · have hposts : ("posts" : String).data ≠ [] ∧ ("posts" : String).data ≠ ['.'] ∧
        ("posts" : String).data ≠ ['.', '.'] ∧ '/' ∉ ("posts" : String).data := by
      refine ⟨by decide, by decide, by decide, by decide⟩
    obtain ⟨hq1, hq3, hq4, hq2⟩ := hposts
    obtain ⟨j1, j2, j3, j4, j5⟩ := joinPath_plain _ _ hd1 hd2 hd3 hd4 hq1 hq3 hq4 hq2
    obtain ⟨hd1a, hd3a, hd4a, hd2a⟩ := hdate t
    obtain ⟨k1, k2, k3, k4, k5⟩ := joinPath_plain _ _ j2 j3 j4 j5 hd1a hd3a hd4a hd2a
    obtain ⟨hf1, hf3, hf4, hf2⟩ := hfile t id
    obtain ⟨m1, m2, m3, m4, m5⟩ := joinPath_plain _ _ k2 k3 k4 k5 hf1 hf3 hf4 hf2
    unfold CreatePostPath
    rw [j1, k1, m1]

/-- Witness for C5: concrete roots and a concrete entry. -/
theorem recordPath_layout_witness :
    WriteEntryPath "/p" "/u" ⟨uuidZero, [], 0, "", "user"⟩ =
      (if ("user" : String) = "project" then "/p" else "/u") ++ "/" ++
        (⟨formatDateChars 0⟩ : String) ++ "/" ++
        (⟨entryFileNameChars 0 uuidZero⟩ : String) ∧
    CreatePostPath "/d" 0 uuidZero =
      "/d" ++ "/" ++ "posts" ++ "/" ++ (⟨formatDateChars 0⟩ : String) ++ "/" ++
        (⟨entryFileNameChars 0 uuidZero⟩ : String) :=
  recordPath_layout "/p" "/u" "/d" ⟨uuidZero, [], 0, "", "user"⟩ 0 uuidZero
    (by decide) (by decide) (by decide) (by decide)
    (by decide) (by decide) (by decide) (by decide)
    (by decide) (by decide) (by decide) (by decide)

/-- The record path the claim asserts, with the microseconds of the
timestamp rendered in the last six characters of the file name. -/
def claimEntryPath (root : String) (t : Micros) (id : UUID) : String :=
  root ++ "/" ++ (⟨formatDateChars t⟩ : String) ++ "/" ++
    (⟨padZeros 2 ((clockSecOfDay t).ediv 3600).toNat ++ '-' ::
      (padZeros 2 (((clockSecOfDay t).ediv 60).emod 60).toNat ++ '-' ::
        (padZeros 2 ((clockSecOfDay t).emod 60).toNat ++ '-' ::
          padZeros 6 ((microsOfDay t).emod 1000000).toNat)) ++ '-' ::
      ((uuidString id).data.take 8 ++ ['.', 'm', 'd'])⟩ : String)

/-- Counterexample to C5 as stated: at 123456 microseconds past midnight
the code writes ...00-00-00-000000-... while the claimed layout would
write ...00-00-00-123456-.... -/
theorem recordPath_layout_cex :
    WriteEntryPath "/p" "/u" ⟨uuidZero, [], 123456, "", "user"⟩ =
      "/u/1970-01-01/00-00-00-000000-00000000.md" ∧
    claimEntryPath "/u" 123456 uuidZero =
      "/u/1970-01-01/00-00-00-123456-00000000.md" ∧
    WriteEntryPath "/p" "/u" ⟨uuidZero, [], 123456, "", "user"⟩ ≠
      claimEntryPath "/u" 123456 uuidZero := by
  refine ⟨by decide, by decide, by decide⟩

/-! ### The social store (internal/storage/social_md.go). -/

/-- socialFrontmatter: the YAML metadata block of a social post file.  The
created_at field holds the parsed timestamp; none models a missing or
unparseable date string (mdstore.FormatTime / ParseTime are external and
modelled from the spec as a faithful timestamp codec). -/
structure socialFrontmatter where
  id : String
  author : String
  tags : List String
  created_at : Option Micros
  parent_post_id : String
  synced : Bool
deriving DecidableEq

/-- Modelled from the spec (§4.1): a social post file as
mdstore.ParseFrontmatter sees it. -/
inductive SFileContent where
  | withFM (fm : socialFrontmatter) (body : String)
  | noFM
deriving DecidableEq

/-- SocialPost from internal/models. -/
structure SocialPost where
  ID : UUID
  AuthorName : String
  Content : String
  Tags : List String
  CreatedAt : Micros
  ParentPostID : Option UUID
  Synced : Bool
deriving DecidableEq

/-- containsTag from internal/storage/social_md.go. -/
def containsTag : List String → String → Bool
  | [], _ => false
  | t :: ts, tag => if t = tag then true else containsTag ts tag

/-- parseSocialPost: require frontmatter, a parseable UUID and a parseable
date; the body is trimmed into the content; a non-empty parent_post_id is
parsed and silently dropped when it is not a parseable UUID. -/
def parseSocialPost (c : SFileContent) : Option SocialPost :=
  match c with
  | .noFM => none
  | .withFM fm body =>
    match uuidParse fm.id with
    | none => none
    | some id =>
      match fm.created_at with
      | none => none
      | some t =>
        some ⟨id, fm.author, trimSpace body, fm.tags, t,
          (if fm.parent_post_id = "" then none else uuidParse fm.parent_post_id),
          fm.synced⟩

/-- ListPostsOptions from internal/storage/social_store.go. -/
structure ListPostsOptions where
  Limit : Int
  Offset : Int
  AgentFilter : String
  TagFilter : String
  ThreadID : String

/-- The in-scan filter chain of ListPosts: author equality, tag
membership, thread matching (parent id equals the thread id, or the post
itself is the thread root). -/
def passesFilters (opts : ListPostsOptions) (post : SocialPost) : Bool :=
  if opts.AgentFilter != "" && post.AuthorName != opts.AgentFilter then false
  else if opts.TagFilter != "" && !(containsTag post.Tags opts.TagFilter) then false
  else if opts.ThreadID != "" then
    (if (match post.ParentPostID with
         | none => true
         | some pid => uuidString pid != opts.ThreadID) then
      uuidString post.ID == opts.ThreadID
    else true)
  else true

/-- A post file inside a date bucket of posts/. -/
structure SFile where
  name : String
  isDir : Bool
  content : Option SFileContent
deriving DecidableEq

/-- A date-bucket directory under posts/. -/
structure SDir where
  name : String
  isDir : Bool
  files : List SFile
deriving DecidableEq

/-- The posts/ tree: none models a non-existent posts directory. -/
abbrev SocialFS := Option (List SDir)

/-- The decode chain of the per-file loop of ListPosts: skip directories,
non-.md files, unreadable files and corrupt files; otherwise the decoded
post. -/
def filePost (f : SFile) : Option SocialPost :=
  if f.isDir then none
  else if ¬ strEndsWith ".md" f.name then none
  else match f.content with
    | none => none
    | some c => parseSocialPost c

/-- The per-bucket loop of ListPosts: decodable posts passing the filters,
in file order. -/
def collectDirPosts (opts : ListPostsOptions) : List SFile → List SocialPost
  | [] => []
  | f :: fs =>
    match filePost f with
    | none => collectDirPosts opts fs
    | some p =>
      if passesFilters opts p then p :: collectDirPosts opts fs
      else collectDirPosts opts fs

/-- The bucket loop of ListPosts: skip non-directories, concatenate the
buckets' posts in directory order. -/
def collectDirsPosts (opts : ListPostsOptions) : List SDir → List SocialPost
  | [] => []
  | d :: ds =>
    (if d.isDir then collectDirPosts opts d.files else []) ++
      collectDirsPosts opts ds

/-- The full scan of ListPosts; a missing posts/ directory yields no
posts. -/
def collectPosts (fs : SocialFS) (opts : ListPostsOptions) : List SocialPost :=
  match fs with
  | none => []
  | some dirs => collectDirsPosts opts dirs

/-- The descending-creation-time comparator of the post sort. -/
def postCreatedAtDesc (a b : SocialPost) : Prop := b.CreatedAt ≤ a.CreatedAt

instance : DecidableRel postCreatedAtDesc := fun a b => by
  unfold postCreatedAtDesc
  infer_instance

/-- The pagination tail of ListPosts: offset (empty when it reaches the
count), then the limit (defaulting to 10 when non-positive, capped at the
count). -/
def paginatePosts (opts : ListPostsOptions) (sorted : List SocialPost) :
    List SocialPost :=
  let afterOffset :=
    if opts.Offset > 0 then
      (if opts.Offset ≥ (sorted.length : Int) then [] else sorted.drop opts.Offset.toNat)
    else sorted
  let limit := if opts.Limit ≤ 0 then 10 else opts.Limit
  let limit2 := if limit > (afterOffset.length : Int) then (afterOffset.length : Int) else limit
  afterOffset.take limit2.toNat

/-- ListPosts: scan, filter, sort by creation time descending, paginate. -/
def ListPosts (fs : SocialFS) (opts : ListPostsOptions) : List SocialPost :=
  paginatePosts opts ((collectPosts fs opts).insertionSort postCreatedAtDesc)

/-- The thread-matching predicate the spec describes: parent identifier
equals the thread id, or the post itself is the thread root. -/
def threadMatches (tid : String) (p : SocialPost) : Bool :=
  (match p.ParentPostID with
   | some pid => uuidString pid == tid
   | none => false) || (uuidString p.ID == tid)

/-- Does this walk entry match postID: a readable .md file whose
frontmatter id equals postID (no UUID or date validation happens here). -/
def fileMatches (postID : String) (f : SFile) : Bool :=
  if f.isDir then false
  else if ¬ strEndsWith ".md" f.name then false
  else match f.content with
    | none => false
    | some .noFM => false
    | some (.withFM fm _) => fm.id == postID

/-- The rewrite MarkSynced performs on the matching file: same
frontmatter with synced set to true, same body. -/
def setSyncedFile (f : SFile) : SFile :=
  match f.content with
  | some (.withFM fm body) =>
    ⟨f.name, f.isDir,
      some (.withFM ⟨fm.id, fm.author, fm.tags, fm.created_at, fm.parent_post_id, true⟩ body)⟩
  | _ => f

/-- The walk over one bucket's files: rewrite the first matching file and
stop; none when no file matches. -/
def markSyncedInFiles (postID : String) : List SFile → Option (List SFile)
  | [] => none
  | f :: fs =>
    if fileMatches postID f then some (setSyncedFile f :: fs)
    else match markSyncedInFiles postID fs with
      | none => none
      | some fs2 => some (f :: fs2)

/-- MarkSynced: walk the date buckets in order, rewrite the first file
whose frontmatter id equals postID; none models the not-found error, in
which case no file is modified. -/
def MarkSynced (postID : String) : List SDir → Option (List SDir)
  | [] => none
  | d :: ds =>
    match markSyncedInFiles postID d.files with
    | some fs2 => some (⟨d.name, d.isDir, fs2⟩ :: ds)
    | none =>
      match MarkSynced postID ds with
      | none => none
      | some ds2 => some (d :: ds2)

/-- C10: a social post file with a decodable id and date but a non-empty,
unparseable parent_post_id still decodes successfully; the invalid parent
reference is silently dropped, leaving the post with no parent identifier
(a thread root for the thread filter). -/
theorem parseSocialPost_invalid_parent (fm : socialFrontmatter) (body : String)
    (id : UUID) (t : Micros)
    (hid : uuidParse fm.id = some id) (hdate : fm.created_at = some t)
    (hp1 : fm.parent_post_id ≠ "") (hp2 : uuidParse fm.parent_post_id = none) :
    parseSocialPost (.withFM fm body) =
      some ⟨id, fm.author, trimSpace body, fm.tags, t, none, fm.synced⟩ := by
  simp [parseSocialPost, hid, hdate, if_neg hp1, hp2]

/-- Witness: a concrete file with parent_post_id "not-a-uuid" decodes to a
post with no parent. -/
theorem parseSocialPost_invalid_parent_witness :
    uuidParse "00000000-0000-0000-0000-000000000000" = some uuidZero ∧
    "not-a-uuid" ≠ "" ∧
    uuidParse "not-a-uuid" = none ∧
    parseSocialPost (.withFM
      ⟨"00000000-0000-0000-0000-000000000000", "ada", ["t1"], some 7,
        "not-a-uuid", false⟩ " hi ") =
      some ⟨uuidZero, "ada", trimSpace " hi ", ["t1"], 7, none, false⟩ :=
  ⟨by rfl, by decide, by rfl,
    parseSocialPost_invalid_parent
      ⟨"00000000-0000-0000-0000-000000000000", "ada", ["t1"], some 7,
        "not-a-uuid", false⟩ " hi " uuidZero 7 (by rfl) rfl (by decide) (by rfl)⟩

lemma passesFilters_thread_eq (opts : ListPostsOptions)
    (hthread : opts.ThreadID ≠ "") (hagent : opts.AgentFilter = "")
    (htag : opts.TagFilter = "") (p : SocialPost) :
    passesFilters opts p = threadMatches opts.ThreadID p := by
  cases hpp : p.ParentPostID with
  | none => simp [passesFilters, threadMatches, hagent, htag, hpp, hthread]
  | some pid =>
    by_cases hq : uuidString pid = opts.ThreadID
    · simp [passesFilters, threadMatches, hagent, htag, hpp, hq, hthread]
    · simp [passesFilters, threadMatches, hagent, htag, hpp, hq, hthread]

lemma passesFilters_empty_true (L O : Int) (p : SocialPost) :
    passesFilters ⟨L, O, "", "", ""⟩ p = true := by
  simp [passesFilters]

lemma collectDirPosts_filter_thread (opts : ListPostsOptions)
    (hthread : opts.ThreadID ≠ "") (hagent : opts.AgentFilter = "")
    (htag : opts.TagFilter = "") (files : List SFile) :
    collectDirPosts opts files =
      (collectDirPosts ⟨opts.Limit, opts.Offset, "", "", ""⟩ files).filter
        (threadMatches opts.ThreadID) := by
  induction files with
  | nil => rfl
  | cons f fs ih =>
    cases hf : filePost f with
    | none => simp only [collectDirPosts, hf]; exact ih
    | some p =>
      simp only [collectDirPosts, hf]
      rw [passesFilters_thread_eq opts hthread hagent htag p,
        passesFilters_empty_true opts.Limit opts.Offset p, if_pos rfl]
      cases htm : threadMatches opts.ThreadID p
      · simp [htm, ih]
      · simp [htm, ih]

lemma collectDirsPosts_filter_thread (opts : ListPostsOptions)
    (hthread : opts.ThreadID ≠ "") (hagent : opts.AgentFilter = "")
    (htag : opts.TagFilter = "") (dirs : List SDir) :
    collectDirsPosts opts dirs =
      (collectDirsPosts ⟨opts.Limit, opts.Offset, "", "", ""⟩ dirs).filter
        (threadMatches opts.ThreadID) := by
  induction dirs with
  | nil => rfl
  | cons d ds ih =>
    simp only [collectDirsPosts, List.filter_append]
    rw [ih]
    by_cases hd : d.isDir = true
    · rw [if_pos hd, if_pos hd,
        collectDirPosts_filter_thread opts hthread hagent htag d.files]
    · rw [if_neg hd, if_neg hd]
      rfl

lemma collectPosts_filter_thread (opts : ListPostsOptions)
    (hthread : opts.ThreadID ≠ "") (hagent : opts.AgentFilter = "")
    (htag : opts.TagFilter = "") (fs : SocialFS) :
    collectPosts fs opts =
      (collectPosts fs ⟨opts.Limit, opts.Offset, "", "", ""⟩).filter
        (threadMatches opts.ThreadID) := by
  cases fs with
  | none => rfl
  | some dirs => exact collectDirsPosts_filter_thread opts hthread hagent htag dirs

lemma mem_paginatePosts {opts : ListPostsOptions} {sorted : List SocialPost}
    {p : SocialPost} (h : p ∈ paginatePosts opts sorted) : p ∈ sorted := by
  simp only [paginatePosts] at h
  have h1 := List.mem_of_mem_take h
  split at h1
  · split at h1
    · simp at h1
    · exact List.mem_of_mem_drop h1
  · exact h1

/-- C8: with a non-empty thread filter (and no author or tag filter), the
scan keeps a decoded post exactly when its parent identifier equals the
thread id or its own identifier does: the filter chain coincides with
threadMatches pointwise, the scan equals the unfiltered scan filtered by
threadMatches, and every post ListPosts returns matches the thread. -/
theorem ListPosts_thread_filter (opts : ListPostsOptions)
    (hthread : opts.ThreadID ≠ "") (hagent : opts.AgentFilter = "")
    (htag : opts.TagFilter = "") :
    (∀ p, passesFilters opts p = threadMatches opts.ThreadID p) ∧
    (∀ fs, collectPosts fs opts =
      (collectPosts fs ⟨opts.Limit, opts.Offset, "", "", ""⟩).filter
        (threadMatches opts.ThreadID)) ∧
    (∀ fs p, p ∈ ListPosts fs opts → threadMatches opts.ThreadID p = true) := by
  refine ⟨passesFilters_thread_eq opts hthread hagent htag,
    collectPosts_filter_thread opts hthread hagent htag, ?_⟩
  intro fs p hp
  have h1 : p ∈ (collectPosts fs opts).insertionSort postCreatedAtDesc :=
    mem_paginatePosts hp
  have h2 : p ∈ collectPosts fs opts :=
    (List.perm_insertionSort postCreatedAtDesc (collectPosts fs opts)).subset h1
  rw [collectPosts_filter_thread opts hthread hagent htag fs] at h2
  exact List.of_mem_filter h2

/-- Witness: with the thread filter set to the zero UUID, a parentless
post passes the filter chain exactly when its own identifier is the zero
UUID. -/
theorem ListPosts_thread_filter_witness :
    uuidString uuidZero ≠ "" ∧
    passesFilters ⟨0, 0, "", "", uuidString uuidZero⟩
        ⟨uuidZero, "ada", "c", [], 0, none, false⟩ =
      threadMatches (uuidString uuidZero) ⟨uuidZero, "ada", "c", [], 0, none, false⟩ :=
  ⟨by decide,
    (ListPosts_thread_filter ⟨0, 0, "", "", uuidString uuidZero⟩
        (by decide) rfl rfl).1
      ⟨uuidZero, "ada", "c", [], 0, none, false⟩⟩

lemma markSyncedInFiles_eq_none (postID : String) (fs : List SFile) :
    markSyncedInFiles postID fs = none ↔
      ∀ f ∈ fs, fileMatches postID f = false := by
  induction fs with
  | nil => simp [markSyncedInFiles]
  | cons f fs ih =>
    constructor
    · intro h g hg
      by_cases hm : fileMatches postID f = true
      · simp only [markSyncedInFiles, if_pos hm] at h
        exact absurd h (by simp)
      · simp only [markSyncedInFiles, if_neg hm] at h
        rcases List.mem_cons.mp hg with hg1 | hg1
        · subst hg1
          simpa using hm
        · cases hr : markSyncedInFiles postID fs with
          | none => exact (ih.mp hr) g hg1
          | some fs2 => rw [hr] at h; exact absurd h (by simp)
    · intro h
      have hm : fileMatches postID f = false := h f (by simp)
      simp only [markSyncedInFiles, if_neg (by simp [hm] : ¬ fileMatches postID f = true)]
      rw [ih.mpr (fun g hg => h g (List.mem_cons_of_mem f hg))]

lemma markSyncedInFiles_eq_some (postID : String) (fs fs2 : List SFile)
    (h : markSyncedInFiles postID fs = some fs2) :
    ∃ pre f post, fs = pre ++ f :: post ∧ fileMatches postID f = true ∧
      (∀ g ∈ pre, fileMatches postID g = false) ∧
      fs2 = pre ++ setSyncedFile f :: post := by
  induction fs generalizing fs2 with
  | nil => simp [markSyncedInFiles] at h
  | cons f fs ih =>
    by_cases hm : fileMatches postID f = true
    · simp only [markSyncedInFiles, if_pos hm] at h
      injection h with h
      exact ⟨[], f, fs, rfl, hm, by simp, h.symm⟩
    · simp only [markSyncedInFiles, if_neg hm] at h
      cases hr : markSyncedInFiles postID fs with
      | none => rw [hr] at h; simp at h
      | some fs3 =>
        rw [hr] at h
        simp only [] at h
        injection h with h
        obtain ⟨pre, g, post, hfs, hg, hpre, hfs3⟩ := ih fs3 hr
        refine ⟨f :: pre, g, post, by rw [hfs]; rfl, hg, ?_, ?_⟩
        · intro g0 hg0
          rcases List.mem_cons.mp hg0 with h0 | h0
          · subst h0; simpa using hm
          · exact hpre g0 h0
        · rw [← h, hfs3]; rfl

lemma MarkSynced_eq_none (postID : String) (dirs : List SDir) :
    MarkSynced postID dirs = none ↔
      ∀ d ∈ dirs, ∀ f ∈ d.files, fileMatches postID f = false := by
  induction dirs with
  | nil => simp [MarkSynced]
  | cons d ds ih =>
    constructor
    · intro h
      cases hr : markSyncedInFiles postID d.files with
      | some fs2 => simp only [MarkSynced, hr] at h; simp at h
      | none =>
        simp only [MarkSynced, hr] at h
        cases hm : MarkSynced postID ds with
        | some ds2 => rw [hm] at h; simp at h
        | none =>
          intro d0 hd0 f hf
          rcases List.mem_cons.mp hd0 with h0 | h0
          · subst h0
            exact (markSyncedInFiles_eq_none postID d0.files).mp hr f hf
          · exact ih.mp hm d0 h0 f hf
    · intro h
      simp only [MarkSynced]
      rw [(markSyncedInFiles_eq_none postID d.files).mpr (h d (by simp))]
      rw [ih.mpr (fun d0 hd0 => h d0 (List.mem_cons_of_mem d hd0))]

lemma MarkSynced_eq_some (postID : String) (dirs dirs2 : List SDir)
    (h : MarkSynced postID dirs = some dirs2) :
    ∃ pre d post fpre f fpost,
      dirs = pre ++ d :: post ∧
      d.files = fpre ++ f :: fpost ∧
      fileMatches postID f = true ∧
      (∀ d0 ∈ pre, ∀ f0 ∈ d0.files, fileMatches postID f0 = false) ∧
      (∀ f0 ∈ fpre, fileMatches postID f0 = false) ∧
      dirs2 = pre ++
        (⟨d.name, d.isDir, fpre ++ setSyncedFile f :: fpost⟩ : SDir) :: post := by
  induction dirs generalizing dirs2 with
  | nil => simp [MarkSynced] at h
  | cons d ds ih =>
    cases hr : markSyncedInFiles postID d.files with
    | some fs2 =>
      simp only [MarkSynced, hr] at h
      injection h with h
      obtain ⟨fpre, f, fpost, hdf, hf, hfpre, hfs2⟩ :=
        markSyncedInFiles_eq_some postID d.files fs2 hr
      refine ⟨[], d, ds, fpre, f, fpost, rfl, hdf, hf, by simp, hfpre, ?_⟩
      rw [← h, hfs2]
      rfl
    | none =>
      simp only [MarkSynced, hr] at h
      cases hm : MarkSynced postID ds with
      | none => rw [hm] at h; simp at h
      | some ds2 =>
        rw [hm] at h
        simp only [] at h
        injection h with h
        obtain ⟨pre, d1, post, fpre, f, fpost, hds, hdf, hf, hpre, hfpre, hds2⟩ :=
          ih ds2 hm
        refine ⟨d :: pre, d1, post, fpre, f, fpost, by rw [hds]; rfl, hdf, hf,
          ?_, hfpre, ?_⟩
        · intro d0 hd0 f0 hf0
          rcases List.mem_cons.mp hd0 with h0 | h0
          · subst h0
            exact (markSyncedInFiles_eq_none postID d0.files).mp hr f0 hf0
          · exact hpre d0 h0 f0 hf0
        · rw [← h, hds2]; rfl

lemma parseSocialPost_setSynced (fm : socialFrontmatter) (body : String)
    (p : SocialPost) (h : parseSocialPost (.withFM fm body) = some p) :
    parseSocialPost (.withFM
        ⟨fm.id, fm.author, fm.tags, fm.created_at, fm.parent_post_id, true⟩ body) =
      some ⟨p.ID, p.AuthorName, p.Content, p.Tags, p.CreatedAt, p.ParentPostID, true⟩ := by
  cases hid : uuidParse fm.id with
  | none => simp [parseSocialPost, hid] at h
  | some id =>
    cases hdate : fm.created_at with
    | none => simp [parseSocialPost, hid, hdate] at h
    | some t =>
      simp only [parseSocialPost, hid, hdate] at h ⊢
      injection h with h
      rw [← h]

/-- C6: MarkSynced fails with the not-found error (modifying nothing)
exactly when no post file's frontmatter id equals postID; on success the
result differs from the input tree in exactly one file — the first match
in walk order — which is rewritten with the synced flag set to true, and
the rewritten file decodes to the same post with Synced = true (the change
ListPosts observes). -/
theorem MarkSynced_spec (postID : String) (dirs : List SDir) :
    (MarkSynced postID dirs = none ↔
      ∀ d ∈ dirs, ∀ f ∈ d.files, fileMatches postID f = false) ∧
    (∀ dirs2, MarkSynced postID dirs = some dirs2 →
      ∃ pre d post fpre f fpost,
        dirs = pre ++ d :: post ∧
        d.files = fpre ++ f :: fpost ∧
        fileMatches postID f = true ∧
        (∀ d0 ∈ pre, ∀ f0 ∈ d0.files, fileMatches postID f0 = false) ∧
        (∀ f0 ∈ fpre, fileMatches postID f0 = false) ∧
        dirs2 = pre ++
          (⟨d.name, d.isDir, fpre ++ setSyncedFile f :: fpost⟩ : SDir) :: post) ∧
    (∀ fm body p, parseSocialPost (.withFM fm body) = some p →
      parseSocialPost (.withFM
          ⟨fm.id, fm.author, fm.tags, fm.created_at, fm.parent_post_id, true⟩ body) =
        some ⟨p.ID, p.AuthorName, p.Content, p.Tags, p.CreatedAt, p.ParentPostID, true⟩) :=
  ⟨MarkSynced_eq_none postID dirs,
   fun dirs2 h => MarkSynced_eq_some postID dirs dirs2 h,
   fun fm body p h => parseSocialPost_setSynced fm body p h⟩

/-- Witness: a tree whose only file has no frontmatter yields the
not-found error, and the synced rewrite of a concrete decodable file
decodes to the same post with Synced = true. -/
theorem MarkSynced_spec_witness :
    MarkSynced "x" [⟨"2025-01-02", true, [⟨"a.md", false, some .noFM⟩]⟩] = none ∧
    parseSocialPost (.withFM
        ⟨"00000000-0000-0000-0000-000000000000", "ada", [], some 3, "", true⟩ "b") =
      some ⟨uuidZero, "ada", "b", [], 3, none, true⟩ :=
  ⟨(MarkSynced_spec "x" [⟨"2025-01-02", true, [⟨"a.md", false, some .noFM⟩]⟩]).1.mpr
      (by decide),
   (MarkSynced_spec "x" [⟨"2025-01-02", true, [⟨"a.md", false, some .noFM⟩]⟩]).2.2
      ⟨"00000000-0000-0000-0000-000000000000", "ada", [], some 3, "", false⟩ "b"
      ⟨uuidZero, "ada", "b", [], 3, none, false⟩ (by rfl)⟩

end Pulse
